import Mathlib

/-!
A shallow embedding, in Lean, of the likelihood engine of `radvel`
(source file `radvel/likelihood.py`): the shared parameter vector, the
generic `Likelihood` operations, `RVLikelihood`, `CompositeLikelihood`
and `GPLikelihood`, together with theorems checking the documented
behaviour of that code.

Numeric data is modelled exactly: a finite floating-point value becomes
an exact rational, and the IEEE special values `inf`, `-inf` and `nan`
are explicit constructors of the value type `F`, with arithmetic
following IEEE semantics (zero is unsigned).  Irrational primitives
(`np.log`, `np.sqrt`, `np.pi`) are parameters of the model (a `RealFns`
record of rational kernels), and the external linear-algebra and kernel
routines consumed by the GP layer (`scipy.linalg.cho_factor`,
`scipy.linalg.cho_solve`, `np.linalg.slogdet`, the `gp` kernel object)
are oracle fields of the `GPLike` structure, so every theorem about the
GP layer quantifies over them.
-/

namespace Radvel

/-- Extended numeric values modelling Python/NumPy floating-point data:
finite values are exact rationals, and `inf`, `ninf`, `nan` model the
IEEE special values (zero is unsigned). -/
inductive F where
  | num (q : ℚ)
  | inf
  | ninf
  | nan
deriving DecidableEq, Inhabited

/-- IEEE negation. -/
def F.neg : F → F
  | .num q => .num (-q)
  | .inf => .ninf
  | .ninf => .inf
  | .nan => .nan

/-- IEEE addition: `nan` propagates, `inf + (-inf)` is `nan`. -/
def F.add : F → F → F
  | .nan, _ => .nan
  | _, .nan => .nan
  | .inf, .ninf => .nan
  | .ninf, .inf => .nan
  | .inf, _ => .inf
  | _, .inf => .inf
  | .ninf, _ => .ninf
  | _, .ninf => .ninf
  | .num a, .num b => .num (a + b)

/-- IEEE subtraction, as addition of the negation. -/
def F.sub (a b : F) : F := F.add a (F.neg b)

/-- IEEE multiplication: `nan` propagates, `inf * 0` is `nan`. -/
def F.mul : F → F → F
  | .nan, _ => .nan
  | _, .nan => .nan
  | .num a, .num b => .num (a * b)
  | .inf, .num b => if b = 0 then .nan else if 0 < b then .inf else .ninf
  | .num a, .inf => if a = 0 then .nan else if 0 < a then .inf else .ninf
  | .ninf, .num b => if b = 0 then .nan else if 0 < b then .ninf else .inf
  | .num a, .ninf => if a = 0 then .nan else if 0 < a then .ninf else .inf
  | .inf, .inf => .inf
  | .inf, .ninf => .ninf
  | .ninf, .inf => .ninf
  | .ninf, .ninf => .inf

/-- IEEE division with an unsigned zero (treated as `+0`): `0 / 0` is
`nan`, `x / 0` is a signed infinity for `x ≠ 0`, `inf / inf` is `nan`. -/
def F.div : F → F → F
  | .nan, _ => .nan
  | _, .nan => .nan
  | .num a, .num b =>
      if b = 0 then (if a = 0 then .nan else if 0 < a then .inf else .ninf)
      else .num (a / b)
  | .num _, .inf => .num 0
  | .num _, .ninf => .num 0
  | .inf, .num b => if 0 ≤ b then .inf else .ninf
  | .ninf, .num b => if 0 ≤ b then .ninf else .inf
  | .inf, .inf => .nan
  | .inf, .ninf => .nan
  | .ninf, .inf => .nan
  | .ninf, .ninf => .nan

/-- Model of `np.isnan` on a scalar. -/
def F.isnan : F → Bool
  | .nan => true
  | _ => false

/-- Model of `np.isfinite` on a scalar: false for `inf`, `-inf`, `nan`. -/
def F.isfinite : F → Bool
  | .num _ => true
  | _ => false

/-- Model of `np.sum` on a 1-D array: a left fold of IEEE addition
starting from `0`. -/
def sumF (l : List F) : F := l.foldl F.add (F.num 0)

/-- Model of `np.mean`: the sum divided by the length (the mean of an
empty array is `0 / 0 = nan`, as in NumPy). -/
def meanF (l : List F) : F := F.div (sumF l) (F.num (l.length : ℚ))

/-- Model of `np.log`, given a rational kernel `f` for the (irrational)
logarithm on positive rationals: `log 0 = -inf`, `log` of a negative
number is `nan`, `log inf = inf`. -/
def logF (f : ℚ → ℚ) : F → F
  | .num q => if 0 < q then .num (f q) else if q = 0 then .ninf else .nan
  | .inf => .inf
  | .ninf => .nan
  | .nan => .nan

/-- Model of `np.sqrt`, given a rational kernel `g` for the (irrational)
square root on nonnegative rationals: `sqrt` of a negative number is
`nan`, `sqrt inf = inf`. -/
def sqrtF (g : ℚ → ℚ) : F → F
  | .num q => if 0 ≤ q then .num (g q) else .nan
  | .inf => .inf
  | .ninf => .nan
  | .nan => .nan

/-- Model of `np.dot` on two 1-D arrays. -/
def dotF (a b : List F) : F := sumF (List.zipWith F.mul a b)

/-- The rational kernels standing for the irrational primitives the
source uses: `np.log`, `np.sqrt` and the constant `np.pi`. -/
structure RealFns where
  logQ : ℚ → ℚ
  sqrtQ : ℚ → ℚ
  piQ : ℚ

/-- One row of the shared `Vector.vector` N×4 array: column 0 is the
value, column 1 the vary flag, column 2 is unused by `likelihood.py`,
and column 3 is the "linear" flag used for analytic offset
elimination.  The two flag columns are modelled as booleans. -/
structure Slot where
  value : F
  vary : Bool
  col2 : F
  linear : Bool
deriving DecidableEq, Inhabited

/-- The contents of the shared parameter vector (`Vector.vector`). -/
abbrev Vec := List Slot

/-- Read row `i` of the vector (rows accessed by the source are always
in range; out-of-range reads return a default row). -/
def slotGet (v : Vec) (i : Nat) : Slot := (v[i]?).getD default

/-- Update row `i` of the vector in place (no-op out of range, which
never happens on the source's access paths). -/
def modifySlot (v : Vec) (i : Nat) (f : Slot → Slot) : Vec :=
  match v[i]? with
  | some s => v.set i (f s)
  | none => v

/-- Python exception classes that the modelled code can raise. -/
inductive PyErr where
  | indexError
  | assertionError
  | typeError
deriving DecidableEq, Inhabited

/-- Exception classes raised by `scipy.linalg.cho_factor`: a
`LinAlgError` for a non-positive-definite matrix, a `ValueError` for
NaN/inf entries (propagated non-finite data).  The source catches
exactly these two classes. -/
inductive NumErr where
  | linAlgError
  | valueError
deriving DecidableEq, Inhabited

/-- Model of `Likelihood.list_vary_params`: the slot indices whose vary
flag is set, in ascending slot order (`np.where` on column 1). -/
def list_vary_params (v : Vec) : List Nat :=
  (List.range v.length).filter (fun i => (slotGet v i).vary)

/-- The mutable state a `Likelihood` object sees: the shared vector
contents plus the cached `self.vary_params` attribute (`none` models
the attribute not existing yet). -/
structure LState where
  vec : Vec
  cache : Option (List Nat)
deriving DecidableEq, Inhabited

/-- The write loop of `set_vary_params`: `for index in self.vary_params:
vector[index][0] = values[i]; i += 1`.  Exhausting `values` while
indices remain raises an `IndexError` (at `values[i]`), leaving the
rows already written in place. -/
def writeVary : Vec → List Nat → List F → Vec × Option PyErr
  | v, [], _ => (v, none)
  | v, _ :: _, [] => (v, some .indexError)
  | v, idx :: vp, x :: xs =>
      writeVary (modifySlot v idx (fun s => { s with value := x })) vp xs

/-- Model of `Likelihood.set_vary_params`: recompute the cached vary
index list when absent or when its length differs from the supplied
array, write the values in slot order, then assert that the number of
values written equals the length of the array. -/
def set_vary_params (vals : List F) (st : LState) : LState × Option PyErr :=
  let vp := match st.cache with
    | none => list_vary_params st.vec
    | some c => if c.length = vals.length then c else list_vary_params st.vec
  let wr := writeVary st.vec vp vals
  let st' : LState := { vec := wr.1, cache := some vp }
  match wr.2 with
  | some e => (st', some e)
  | none => if vp.length = vals.length then (st', none) else (st', some .assertionError)

/-- Model of `Likelihood.get_vary_params`: read column 0 at the cached
vary indices, computing the cache first when the attribute is absent. -/
def get_vary_params (st : LState) : List F × LState :=
  match st.cache with
  | some c => (c.map (fun i => (slotGet st.vec i).value), st)
  | none =>
      let c := list_vary_params st.vec
      (c.map (fun i => (slotGet st.vec i).value), { st with cache := some c })

/-- A likelihood state whose cached vary index list, if present, is the
current one (the source requires external code to invalidate the cache
whenever vary flags change). -/
def cacheOk (st : LState) : Prop :=
  st.cache = none ∨ st.cache = some (list_vary_params st.vec)

/-- The diagnostic lines printed by `Likelihood.aic` when the
small-sample correction is undefined. -/
def aicWarnLines : List String :=
  ["Warning: The number of free parameters is greater than or equal to",
   "         the number of data points. The AICc comparison calculations",
   "         will fail in this case."]

/-- Model of `Likelihood.aic`: `n = len(self.y)`, `k` the number of
varied parameters (via `get_vary_params`), `aic = -2 logprob + 2k`,
plus the small-sample correction `2k(k+1)/(n-k-1)` when the denominator
is positive; otherwise print a diagnostic and return `np.inf`.  The
value of `self.logprob()` (implemented by subclasses) is passed in as
`lp`.  Returns the value, the printed lines, and the updated state. -/
def aic (lp : F) (y : List F) (st : LState) : (F × List String) × LState :=
  let n := y.length
  let gv := get_vary_params st
  let k := gv.1.length
  let a := F.add (F.mul (F.num (-2)) lp) (F.num (2 * (k : ℚ)))
  let denom : ℚ := (n : ℚ) - (k : ℚ) - 1
  if 0 < denom then
    ((F.add a (F.num ((2 * (k : ℚ) * ((k : ℚ) + 1)) / denom)), []), gv.2)
  else
    ((F.inf, aicWarnLines), gv.2)

/-- Modelled from the spec: `radvel.model.Parameter` (not under `src/`)
is a record of a value and a vary flag; composite validation requires
the `(value, vary)` pair to be identical across children. -/
structure Param where
  value : F
  vary : Bool
deriving DecidableEq, Inhabited

/-- Modelled from the spec: `radvel.model.Parameter._equals` (not under
`src/`) holds when the `(value, vary)` pairs coincide. -/
def paramEquals (p q : Param) : Bool :=
  decide (p.value = q.value) && (p.vary == q.vary)

/-- Lookup in an insertion-ordered association list modelling a Python
dict (keys unique in any dict produced by Python). -/
def alookup (k : String) : List (String × Param) → Option Param
  | [] => none
  | (k', p) :: rest => if k = k' then some p else alookup k rest

/-- Python `str.split(sep)` for a one-character separator. -/
def splitOnChar (c : Char) : List Char → List (List Char)
  | [] => [[]]
  | a :: rest =>
      let r := splitOnChar c rest
      if a = c then [] :: r
      else
        match r with
        | [] => [[a]]
        | g :: gs => (a :: g) :: gs

/-- `parname.split('_')[1]` — the decorrelation variable named inside a
decorrelation-coefficient parameter name.  (Python raises `IndexError`
when the name has no underscore; such names are excluded by the
theorems' hypotheses.) -/
def varOf (parname : String) : String :=
  String.mk ((splitOnChar '_' parname.data).getD 1 [])

/-- Helper for substring containment: does `n` occur as a prefix of
some suffix of the second list? -/
def strContainsGo (n : List Char) : List Char → Bool
  | [] => n.isEmpty
  | c :: t => n.isPrefixOf (c :: t) || strContainsGo n t

/-- Python substring containment `needle in hay`. -/
def strContains (needle hay : String) : Bool :=
  strContainsGo needle.data hay.data

/-- Model of an `RVLikelihood` object's immutable attributes.  `model`
is the external RV model callable; `indices` is the shared vector's
name-to-slot dict (total here: the names the source looks up are
registered at construction); `vecId` models the identity of the
`Vector` object the likelihood references. -/
structure RVLike where
  model : List F → List F
  x : List F
  y : List F
  yerr : List F
  telvec : List String
  suffix : String
  extraParams : List String
  gammaParam : String
  gammaIndex : Nat
  jitIndex : Nat
  decorrParams : List String
  decorrVectors : String → List F
  indices : String → Nat
  params : List (String × Param)
  uparams : Option (List (String × F))
  vecId : Nat

/-- Model of `RVLikelihood.errorbars`: `sqrt(yerr**2 + jit**2)`. -/
def rv_errorbars (rf : RealFns) (L : RVLike) (v : Vec) : List F :=
  let jit := (slotGet v L.jitIndex).value
  L.yerr.map (fun e => sqrtF rf.sqrtQ (F.add (F.mul e e) (F.mul jit jit)))

/-- The coefficient list collected for one decorrelation variable:
the values of every decorrelation parameter whose name contains `var`
as a substring, in registration order, with the constant term `0.0`
appended (`pars.append(0.0)`). -/
def decorrPars (L : RVLike) (v : Vec) (var : String) : List F :=
  (L.decorrParams.filter (fun par => strContains var par)).map
    (fun par => (slotGet v (L.indices par)).value) ++ [F.num 0]

/-- Model of evaluating `np.poly1d(coeffs)` at a point: Horner's rule
with the highest-order coefficient first. -/
def polyEval (coeffs : List F) (t : F) : F :=
  coeffs.foldl (fun acc c => F.add (F.mul acc t) c) (F.num 0)

/-- Model of `np.isfinite(arr).all()`. -/
def allFiniteF (l : List F) : Bool := l.all F.isfinite

/-- One iteration of the decorrelation loop in
`RVLikelihood.residuals`: find the variable named in `parname`, collect
its coefficients, and, only when the auxiliary vector is entirely
finite, subtract the polynomial evaluated on the mean-centred vector. -/
def decorrStep (L : RVLike) (v : Vec) (res : List F) (parname : String) : List F :=
  let var := varOf parname
  let pars := decorrPars L v var
  if allFiniteF (L.decorrVectors var) then
    let dv := L.decorrVectors var
    let centered := dv.map (fun t => F.sub t (meanF dv))
    List.zipWith F.sub res (centered.map (polyEval pars))
  else res

/-- The decorrelation section of `RVLikelihood.residuals` (the loop over
`self.decorr_params`, guarded by `len(self.decorr_params) > 0`). -/
def applyDecorr (L : RVLike) (v : Vec) (res : List F) : List F :=
  if 0 < L.decorrParams.length then L.decorrParams.foldl (decorrStep L v) res
  else res

/-- The `ztil` value of `RVLikelihood.residuals`:
`sum((y-mod)/(yerr^2+jit^2)) / sum(1/(yerr^2+jit^2))`, replaced by
`0.0` when the quotient is NaN. -/
def ztilF (L : RVLike) (v : Vec) : F :=
  let mod := L.model L.x
  let jit := (slotGet v L.jitIndex).value
  let w := L.yerr.map (fun e => F.add (F.mul e e) (F.mul jit jit))
  let znum := sumF (List.zipWith F.div (List.zipWith F.sub L.y mod) w)
  let zden := sumF (w.map (fun d => F.div (F.num 1) d))
  let z0 := F.div znum zden
  if z0.isnan then F.num 0 else z0

/-- Model of `RVLikelihood.residuals`.  When the gamma slot has the
linear flag set and the vary flag unset, `ztil` is computed as in the
source and written into the gamma slot of the shared vector; the
residual array then uses the updated gamma value, and decorrelation
terms are subtracted last.  Returns the residual array and the
(possibly mutated) vector. -/
def rv_residuals (L : RVLike) (v : Vec) : List F × Vec :=
  let mod := L.model L.x
  let g := slotGet v L.gammaIndex
  let v' :=
    if g.linear && !g.vary then
      modifySlot v L.gammaIndex (fun s => { s with value := ztilF L v })
    else v
  let gval := (slotGet v' L.gammaIndex).value
  let res := List.zipWith F.sub (L.y.map (fun yi => F.sub yi gval)) mod
  (applyDecorr L v' res, v')

/-- Specification-side form (from the spec text of the linear-gamma
elimination): the inverse-variance-weighted mean of `y - model` with
weights `1/(yerr^2 + jit^2)`. -/
def invVarWeightedMean (yq mq eq2 : List ℚ) (jq : ℚ) : ℚ :=
  let w := eq2.map (fun e => 1 / (e * e + jq * jq))
  (List.zipWith (fun d wi => d * wi) (List.zipWith (fun a b => a - b) yq mq) w).sum / w.sum

/-- Model of the module-level `loglike_jitter` function:
`-0.5 * sum(r^2/(sigma^2+jit^2)) - sum(log(sqrt(2 pi (sigma^2+jit^2))))`. -/
def loglike_jitter (rf : RealFns) (residuals sigma : List F) (sigma_jit : F) : F :=
  let sum_sig_quad := sigma.map (fun s => F.add (F.mul s s) (F.mul sigma_jit sigma_jit))
  let penalty := sumF (sum_sig_quad.map (fun d =>
    logF rf.logQ (sqrtF rf.sqrtQ (F.mul (F.mul (F.num 2) (F.num rf.piQ)) d))))
  let chi2 := sumF (List.zipWith (fun r d => F.div (F.mul r r) d) residuals sum_sig_quad)
  F.sub (F.mul (F.num (-(1 : ℚ)/2)) chi2) penalty

/-- Model of `RVLikelihood.logprob`: read the jitter, compute residuals
(with their side effect on the vector), apply `loglike_jitter`, and add
the profiled-offset normalisation `log(sqrt(2 pi sigz))` when the gamma
slot is linear and not varied. -/
def rv_logprob (rf : RealFns) (L : RVLike) (v : Vec) : F × Vec :=
  let sigma_jit := (slotGet v L.jitIndex).value
  let r := rv_residuals L v
  let ll := loglike_jitter rf r.1 L.yerr sigma_jit
  let g := slotGet r.2 L.gammaIndex
  if g.linear && !g.vary then
    let sigz := F.div (F.num 1)
      (sumF (L.yerr.map (fun e => F.div (F.num 1) (F.add (F.mul e e) (F.mul sigma_jit sigma_jit)))))
    (F.add ll (logF rf.logQ (sqrtF rf.sqrtQ (F.mul (F.mul (F.num 2) (F.num rf.piQ)) sigz))), r.2)
  else (ll, r.2)

/-- The fields `CompositeLikelihood.__init__` assembles. -/
structure CompState where
  model : List F → List F
  x : List F
  y : List F
  yerr : List F
  telvec : List String
  extraParams : List String
  suffixes : List String
  uparams : Option (List (String × F))
  hnames : List String
  params : List (String × Param)
  vecId : Nat

/-- The parameter-merging loop of `CompositeLikelihood.__init__`:
`for k in like.params: if k in params: assert like.params[k]._equals(
params[k]) else: params[k] = like.params[k]`. -/
def mergeParams (acc : List (String × Param)) :
    List (String × Param) → Except PyErr (List (String × Param))
  | [] => .ok acc
  | (k, p) :: ps =>
      match alookup k acc with
      | some q => if paramEquals p q then mergeParams acc ps else .error .assertionError
      | none => mergeParams (acc ++ [(k, p)]) ps

/-- The `self.uparams` update in the composite constructor:
`try: self.uparams = self.uparams.update(like.uparams) except
AttributeError: self.uparams = None`.  Python semantics: when the
accumulator is `None`, the `AttributeError` is caught and the result is
`None`; when both are dicts, `dict.update` returns `None`, which is
what gets assigned; when the accumulator is a dict and the child's is
`None`, `dict.update(None)` raises an uncaught `TypeError`. -/
def updateUparams : Option (List (String × F)) → Option (List (String × F)) →
    Except PyErr (Option (List (String × F)))
  | none, _ => .ok none
  | some _, some _ => .ok none
  | some _, none => .error .typeError

/-- One iteration of the child loop in `CompositeLikelihood.__init__`
(for children after the first): append the data arrays (the child's `y`
shifted by its current gamma value, read through the child's own vector
reference), update `uparams`, merge and check the parameter dicts, and
assert that the child references the identical vector object.  `heap`
maps vector-object identities to their contents. -/
def compositeStep (heap : Nat → Vec) (vecId0 : Nat) (acc : CompState) (like : RVLike) :
    Except PyErr CompState :=
  let gval := (slotGet (heap like.vecId) (like.indices like.gammaParam)).value
  match updateUparams acc.uparams like.uparams with
  | .error e => .error e
  | .ok up =>
      match mergeParams acc.params like.params with
      | .error e => .error e
      | .ok ps =>
          if like.vecId = vecId0 then
            .ok { model := acc.model,
                  x := acc.x ++ like.x,
                  y := acc.y ++ like.y.map (fun yi => F.sub yi gval),
                  yerr := acc.yerr ++ like.yerr,
                  telvec := acc.telvec ++ like.telvec,
                  extraParams := acc.extraParams ++ like.extraParams,
                  suffixes := acc.suffixes ++ [like.suffix],
                  uparams := up,
                  hnames := acc.hnames,
                  params := ps,
                  vecId := acc.vecId }
          else .error .assertionError

/-- The loop of `CompositeLikelihood.__init__` over children after the
first. -/
def compositeFold (heap : Nat → Vec) (vecId0 : Nat) (acc : CompState) :
    List RVLike → Except PyErr CompState
  | [] => .ok acc
  | like :: rest =>
      match compositeStep heap vecId0 acc like with
      | .error e => .error e
      | .ok acc' => compositeFold heap vecId0 acc' rest

/-- Model of `CompositeLikelihood.__init__`.  An empty list raises
`IndexError` at `like_list[0]`.  Fields start from the first child
(`hnames` starts empty: `RVLikelihood` children carry no `hnames`
attribute), the remaining children are folded in, and finally
`self.extra_params = list(set(self.extra_params))` deduplicates the
extra-parameter names (Python's set order is unspecified; it is
modelled as the order-preserving `dedup`). -/
def composite_init (heap : Nat → Vec) : List RVLike → Except PyErr CompState
  | [] => .error .indexError
  | like0 :: rest =>
      let acc0 : CompState :=
        { model := like0.model, x := like0.x, y := like0.y, yerr := like0.yerr,
          telvec := like0.telvec, extraParams := like0.extraParams,
          suffixes := [like0.suffix], uparams := like0.uparams,
          hnames := [], params := like0.params, vecId := like0.vecId }
      match compositeFold heap like0.vecId acc0 rest with
      | .error e => .error e
      | .ok st => .ok { st with extraParams := st.extraParams.dedup }

/-- Specification-side predicate for the composite consistency check:
every parameter name carried by two children has an identical
`(value, vary)` pair in both. -/
def paramsAgree (likes : List RVLike) : Prop :=
  ∀ l1 ∈ likes, ∀ l2 ∈ likes, ∀ k p q,
    alookup k l1.params = some p → alookup k l2.params = some q →
      paramEquals p q = true

/-- Model of `CompositeLikelihood.logprob`: `_logprob = 0`, then
`_logprob += like.logprob()` over the children in list order, threading
the shared vector (a child's `logprob` can mutate it). -/
def composite_logprob (rf : RealFns) (likes : List RVLike) (v : Vec) : F × Vec :=
  likes.foldl (fun acc like =>
    let r := rv_logprob rf like acc.2
    (F.add acc.1 r.1, r.2)) (F.num 0, v)

/-- Specification-side form of the composite log-probability: collect
each child's own `logprob()` value, in list order, threading the shared
vector, and return the list together with the final vector. -/
def childLogprobs (rf : RealFns) : List RVLike → Vec → List F × Vec
  | [], v => ([], v)
  | like :: rest, v =>
      let r := rv_logprob rf like v
      let t := childLogprobs rf rest r.2
      (r.1 :: t.1, t.2)

/-- A matrix of extended values (a NumPy 2-D array). -/
abbrev Mat := List (List F)

/-- Matrix–vector product (`np.dot` of a 2-D and a 1-D array). -/
def matVec (M : Mat) (r : List F) : List F := M.map (fun row => dotF row r)

/-- Matrix product. -/
def matMul (A B : Mat) : Mat :=
  A.map (fun row => B.transpose.map (fun col => dotF row col))

/-- Elementwise matrix difference. -/
def matSub (A B : Mat) : Mat := List.zipWith (List.zipWith F.sub) A B

/-- Diagonal of a matrix. -/
def diagM (A : Mat) : List F :=
  (List.range A.length).map (fun i => (((A[i]?).getD [])[i]?).getD default)

/-- Outer product of two vectors. -/
def outerF (a b : List F) : Mat := a.map (fun ai => b.map (fun bi => F.mul ai bi))

/-- Model of a `GPLikelihood` object.  Data fields are the concatenated
arrays assembled by the composite constructor; `likeList` holds the
child likelihoods (used by the inherited `errorbars`).  The external
scipy/kernel routines are oracle fields: `covE hp a b errs` stands for
`kernel.compute_covmatrix(errs)` after `compute_distances(a, b)` with
hyperparameter values `hp` pushed in; `covAmp hp a b amp` stands for
`kernel.compute_covmatrix(0., amp_matrix=amp)` in the same state;
`choFactor`, `choSolve`, `choSolveMat` and `slogdet` stand for
`scipy.linalg.cho_factor`, `scipy.linalg.cho_solve` (vector and matrix
right-hand sides) and `np.linalg.slogdet`. -/
structure GPLike where
  likeList : List RVLike
  model : List F → List F
  x : List F
  y : List F
  telvec : List String
  indices : String → Nat
  hnames : List String
  ampsArray : List String
  covE : List F → List F → List F → List F → Mat
  covAmp : List F → List F → List F → Option Mat → Mat
  choFactor : Mat → Except NumErr Mat
  choSolve : Mat → List F → List F
  choSolveMat : Mat → Mat → Mat
  slogdet : Mat → F × F

/-- Model of `GPLikelihood.update_kernel_params`: the current values of
the hyperparameter slots, read from the shared vector, as handed to the
kernel oracles. -/
def hpVals (G : GPLike) (v : Vec) : List F :=
  G.hnames.map (fun k => (slotGet v (G.indices k)).value)

/-- The inherited `CompositeLikelihood.errorbars`: the concatenation of
the children's `errorbars()` arrays. -/
def gp_errorbars (rf : RealFns) (G : GPLike) (v : Vec) : List F :=
  (G.likeList.map (fun L => rv_errorbars rf L v)).flatten

/-- The per-point gamma array built by `GPLikelihood._resids` and
`GPLikelihood.residuals`: each data point gets the value of the
`gamma_<instrument>` slot of its instrument label (the source computes
this through `np.unique`/index masks; the per-point result is the
same). -/
def buildGammas (G : GPLike) (v : Vec) : List F :=
  G.telvec.map (fun t => (slotGet v (G.indices ("gamma_" ++ t))).value)

/-- Model of `GPLikelihood._resids`: `y - model(x) - gammas`, with no GP
mean subtracted. -/
def gp_resids (G : GPLike) (v : Vec) : List F :=
  List.zipWith F.sub (List.zipWith F.sub G.y (G.model G.x)) (buildGammas G v)

/-- Model of `GPLikelihood.predict`: returns the GP predictive mean and
standard deviation at `xpred`.  `cho_factor` failures propagate (there
is no try/except here).  The kernel's mutable distance state is passed
to the oracles explicitly; the source restores the training-distance
state before returning. -/
def gp_predict (rf : RealFns) (G : GPLike) (v : Vec) (xpred : List F)
    (ampName : Option String) : Except NumErr (List F × List F) :=
  let hp := hpVals G v
  let r := gp_resids G v
  let K := G.covE hp G.x G.x (gp_errorbars rf G v)
  let ampM : Option Mat :=
    match ampName with
    | some nm =>
        let xamps := xpred.map (fun _ => (slotGet v (G.indices nm)).value)
        let damps := G.ampsArray.map (fun p => (slotGet v (G.indices p)).value)
        some (outerF xamps damps)
    | none => none
  let Ks := G.covAmp hp xpred G.x ampM
  match G.choFactor K with
  | .error e => .error e
  | .ok fac =>
      let alpha := G.choSolve fac r
      let mu := matVec Ks alpha
      let ampM2 : Option Mat :=
        match ampName with
        | some nm =>
            let a := (slotGet v (G.indices nm)).value
            some [[F.mul a a]]
        | none => none
      let Kss := G.covAmp hp xpred xpred ampM2
      let B := G.choSolveMat fac Ks.transpose
      let varL := diagM (matSub Kss (matMul Ks B))
      let stdev := varL.map (sqrtF rf.sqrtQ)
      .ok (mu, stdev)

/-- Model of `GPLikelihood.residuals`: `y - model(x) - mu_pred - gammas`,
where `mu_pred` is the GP predictive mean at the training times
(`self.predict(self.x)` with no amplitude override). -/
def gp_residuals (rf : RealFns) (G : GPLike) (v : Vec) : Except NumErr (List F) :=
  let gammas := buildGammas G v
  match gp_predict rf G v G.x none with
  | .error e => .error e
  | .ok p =>
      .ok (List.zipWith F.sub
        (List.zipWith F.sub (List.zipWith F.sub G.y (G.model G.x)) p.1) gammas)

/-- The warning message emitted by `GPLikelihood.logprob` when the
covariance factorization fails. -/
def nonPosDefMsg : String := "Non-positive definite kernel detected."

/-- Model of `GPLikelihood.logprob`: push hyperparameters, compute
`_resids`, build the covariance matrix, and inside a try/except compute
`-0.5 (r . alpha + log|K| + N log 2 pi)` via `cho_factor`/`cho_solve`;
on `LinAlgError` or `ValueError` emit a `RuntimeWarning` (returned here
as the message list) and return `-inf` instead of raising. -/
def gp_logprob (rf : RealFns) (G : GPLike) (v : Vec) : F × List String :=
  let hp := hpVals G v
  let r := gp_resids G v
  let K := G.covE hp G.x G.x (gp_errorbars rf G v)
  match G.choFactor K with
  | .ok fac =>
      let alpha := G.choSolve fac r
      let d := (G.slogdet K).2
      (F.mul (F.num (-(1 : ℚ)/2))
        (F.add (F.add (dotF r alpha) d)
          (F.mul (F.num (G.x.length : ℚ)) (logF rf.logQ (F.mul (F.num 2) (F.num rf.piQ))))),
       [])
  | .error _ => (F.ninf, [nonPosDefMsg])

/-- `GPLikelihood.logprob` with the `_resids` vector abstracted as an
argument: used to state that `logprob` is a function of `_resids`
alone (no GP predictive mean enters it). -/
def gp_logprob_given (rf : RealFns) (G : GPLike) (v : Vec) (r : List F) : F × List String :=
  let hp := hpVals G v
  let K := G.covE hp G.x G.x (gp_errorbars rf G v)
  match G.choFactor K with
  | .ok fac =>
      let alpha := G.choSolve fac r
      let d := (G.slogdet K).2
      (F.mul (F.num (-(1 : ℚ)/2))
        (F.add (F.add (dotF r alpha) d)
          (F.mul (F.num (G.x.length : ℚ)) (logF rf.logQ (F.mul (F.num 2) (F.num rf.piQ))))),
       [])
  | .error _ => (F.ninf, [nonPosDefMsg])

/-! ## Concrete instances used by the witness theorems -/

/-- A concrete likelihood state: three slots, the first and third
varied. -/
def c3st : LState :=
  { vec := [{ value := F.num 1, vary := true, col2 := F.num 0, linear := false },
            { value := F.num 2, vary := false, col2 := F.num 0, linear := true },
            { value := F.num 3, vary := true, col2 := F.num 0, linear := false }],
    cache := none }

/-- A concrete likelihood state with a single varied slot. -/
def c4st : LState :=
  { vec := [{ value := F.num 0, vary := true, col2 := F.num 0, linear := false }],
    cache := none }

/-- A concrete single-instrument RV likelihood over two data points,
with the offset slot flagged linear and fixed. -/
def c2L : RVLike :=
  { model := fun _ => [F.num 0, F.num 0],
    x := [F.num 0, F.num 0],
    y := [F.num 1, F.num 3],
    yerr := [F.num 1, F.num 1],
    telvec := ["i", "i"],
    suffix := "i",
    extraParams := ["gamma_i", "jit_i"],
    gammaParam := "gamma_i",
    gammaIndex := 0,
    jitIndex := 1,
    decorrParams := [],
    decorrVectors := fun _ => [],
    indices := fun _ => 0,
    params := [],
    uparams := none,
    vecId := 0 }

/-- The shared vector for `c2L`: a linear, fixed gamma slot and a
jitter slot at 0. -/
def c2v : Vec :=
  [{ value := F.num 0, vary := false, col2 := F.num 0, linear := true },
   { value := F.num 0, vary := false, col2 := F.num 0, linear := false }]

/-- A concrete RV likelihood with two decorrelation variables `a` and
`b`; the auxiliary vector of `a` is finite, that of `b` contains an
infinity. -/
def c8L : RVLike :=
  { model := fun _ => [F.num 0],
    x := [F.num 0],
    y := [F.num 10],
    yerr := [F.num 1],
    telvec := ["i"],
    suffix := "i",
    extraParams := ["gamma_i", "jit_i"],
    gammaParam := "gamma_i",
    gammaIndex := 0,
    jitIndex := 1,
    decorrParams := ["c1_a", "c1_b"],
    decorrVectors := fun s => if s = "a" then [F.num 1, F.num 3] else [F.inf, F.num 0],
    indices := fun s => if s = "c1_a" then 2 else 3,
    params := [],
    uparams := none,
    vecId := 0 }

/-- The shared vector for `c8L`: gamma, jitter and the two
decorrelation coefficients (2 and 5). -/
def c8v : Vec :=
  [{ value := F.num 0, vary := false, col2 := F.num 0, linear := false },
   { value := F.num 0, vary := false, col2 := F.num 0, linear := false },
   { value := F.num 2, vary := true, col2 := F.num 0, linear := false },
   { value := F.num 5, vary := true, col2 := F.num 0, linear := false }]

/-- Concrete rational kernels for the irrational primitives, used by
witnesses (their values are irrelevant to the statements proved). -/
def rf0 : RealFns := { logQ := fun q => q, sqrtQ := fun q => q, piQ := 3 }

/-- The shared vector for the dataset-splitting witness: gamma (not
linear) and jitter slots. -/
def c5v : Vec :=
  [{ value := F.num 4, vary := true, col2 := F.num 0, linear := false },
   { value := F.num 1, vary := true, col2 := F.num 0, linear := false }]

/-- First half of a split dataset (one point). -/
def c5L1 : RVLike :=
  { model := fun _ => [F.num 0],
    x := [F.num 0],
    y := [F.num 1],
    yerr := [F.num 1],
    telvec := ["i"],
    suffix := "i",
    extraParams := ["gamma_i", "jit_i"],
    gammaParam := "gamma_i",
    gammaIndex := 0,
    jitIndex := 1,
    decorrParams := [],
    decorrVectors := fun _ => [],
    indices := fun _ => 0,
    params := [],
    uparams := none,
    vecId := 0 }

/-- Second half of the split dataset (one point). -/
def c5L2 : RVLike :=
  { c5L1 with x := [F.num 3], y := [F.num 2] }

/-- The same dataset as a single likelihood. -/
def c5L : RVLike :=
  { c5L1 with
    model := fun _ => [F.num 0, F.num 0],
    x := [F.num 0, F.num 3],
    y := [F.num 1, F.num 2],
    yerr := [F.num 1, F.num 1] }

/-- A concrete GP likelihood whose Cholesky-factorization oracle always
fails, modelling a non-positive-definite covariance matrix. -/
def c1G : GPLike :=
  { likeList := [],
    model := fun _ => [F.num 0],
    x := [F.num 0],
    y := [F.num 1],
    telvec := ["i"],
    indices := fun _ => 0,
    hnames := [],
    ampsArray := [],
    covE := fun _ _ _ _ => [[F.num 1]],
    covAmp := fun _ _ _ _ => [[F.num 1]],
    choFactor := fun _ => .error .linAlgError,
    choSolve := fun _ r => r,
    choSolveMat := fun _ M => M,
    slogdet := fun _ => (F.num 1, F.num 0) }

/-! ## Basic lemmas about the value type -/

@[simp] theorem F.neg_num (a : ℚ) : F.neg (.num a) = .num (-a) := rfl

@[simp] theorem F.add_num_num (a b : ℚ) : F.add (.num a) (.num b) = .num (a + b) := rfl

@[simp] theorem F.sub_num_num (a b : ℚ) : F.sub (.num a) (.num b) = .num (a - b) := by
  simp [F.sub, F.add, sub_eq_add_neg]

@[simp] theorem F.mul_num_num (a b : ℚ) : F.mul (.num a) (.num b) = .num (a * b) := rfl

theorem F.div_num_num (a b : ℚ) (hb : b ≠ 0) : F.div (.num a) (.num b) = .num (a / b) := by
  simp [F.div, hb]

@[simp] theorem F.zero_add (x : F) : F.add (.num 0) x = x := by
  cases x <;> simp [F.add]

@[simp] theorem F.add_zero (x : F) : F.add x (.num 0) = x := by
  cases x <;> simp [F.add]

theorem F.add_comm (a b : F) : F.add a b = F.add b a := by
  cases a <;> cases b <;> simp [F.add] <;> ring

theorem F.add_assoc (a b c : F) : F.add (F.add a b) c = F.add a (F.add b c) := by
  cases a <;> cases b <;> cases c <;> simp [F.add] <;> ring

theorem F.neg_add (a b : F) : F.neg (F.add a b) = F.add (F.neg a) (F.neg b) := by
  cases a <;> cases b <;> simp [F.add, F.neg] <;> ring

theorem F.mul_neghalf_add (a b : F) :
    F.mul (.num (-(1 : ℚ)/2)) (F.add a b) =
      F.add (F.mul (.num (-(1 : ℚ)/2)) a) (F.mul (.num (-(1 : ℚ)/2)) b) := by
  cases a <;> cases b <;> simp [F.add, F.mul] <;> norm_num <;> ring

theorem sumF_foldl (l : List F) (a : F) : l.foldl F.add a = F.add a (sumF l) := by
  induction l generalizing a with
  | nil => simp [sumF]
  | cons x xs ih =>
      show (xs.foldl F.add (F.add a x)) = _
      rw [ih (F.add a x), sumF]
      show _ = F.add a (xs.foldl F.add (F.add (F.num 0) x))
      rw [show F.add (F.num 0) x = x from F.zero_add x, ih x, F.add_assoc]
      rfl

@[simp] theorem sumF_nil : sumF [] = F.num 0 := rfl

theorem sumF_cons (x : F) (l : List F) : sumF (x :: l) = F.add x (sumF l) := by
  show (l.foldl F.add (F.add (F.num 0) x)) = _
  rw [F.zero_add, sumF_foldl]

theorem sumF_append (l1 l2 : List F) :
    sumF (l1 ++ l2) = F.add (sumF l1) (sumF l2) := by
  show ((l1 ++ l2).foldl F.add (F.num 0)) = _
  rw [List.foldl_append, sumF_foldl]
  rfl

theorem sumF_map_num (l : List ℚ) : sumF (l.map F.num) = F.num l.sum := by
  induction l with
  | nil => simp
  | cons x xs ih => rw [List.map_cons, sumF_cons, ih, List.sum_cons, F.add_num_num]

/-! ## Lemmas about the parameter vector and the vary-parameter cache -/

theorem length_modifySlot (v : Vec) (i : Nat) (f : Slot → Slot) :
    (modifySlot v i f).length = v.length := by
  unfold modifySlot
  cases h : v[i]? with
  | none => rfl
  | some s => simp

theorem slotGet_modify_self (v : Vec) (i : Nat) (f : Slot → Slot) (h : i < v.length) :
    slotGet (modifySlot v i f) i = f (slotGet v i) := by
  unfold modifySlot slotGet
  cases hv : v[i]? with
  | none => exact absurd (List.getElem?_eq_none_iff.mp hv) (Nat.not_le.mpr h)
  | some s => simp [List.getElem?_set_self h, hv]

theorem slotGet_modify_ne (v : Vec) (i j : Nat) (f : Slot → Slot) (h : i ≠ j) :
    slotGet (modifySlot v j f) i = slotGet v i := by
  unfold modifySlot slotGet
  cases hv : v[j]? with
  | none => rfl
  | some s => simp [List.getElem?_set_ne (fun e => h e.symm)]

theorem slotGet_modify_value (v : Vec) (i j : Nat) (x : F) :
    (slotGet (modifySlot v j (fun s => { s with value := x })) i).vary =
        (slotGet v i).vary ∧
    (slotGet (modifySlot v j (fun s => { s with value := x })) i).col2 =
        (slotGet v i).col2 ∧
    (slotGet (modifySlot v j (fun s => { s with value := x })) i).linear =
        (slotGet v i).linear := by
  by_cases hij : i = j
  · subst hij
    by_cases hlt : i < v.length
    · rw [slotGet_modify_self v i _ hlt]
      exact ⟨rfl, rfl, rfl⟩
    · unfold modifySlot
      rw [List.getElem?_eq_none_iff.mpr (Nat.le_of_not_lt hlt)]
      exact ⟨rfl, rfl, rfl⟩
  · rw [slotGet_modify_ne v i j _ hij]
    exact ⟨rfl, rfl, rfl⟩

theorem mem_list_vary (v : Vec) (i : Nat) :
    i ∈ list_vary_params v ↔ i < v.length ∧ (slotGet v i).vary = true := by
  unfold list_vary_params
  rw [List.mem_filter, List.mem_range]

theorem nodup_list_vary (v : Vec) : (list_vary_params v).Nodup :=
  (List.nodup_range _).filter _

theorem writeVary_err (v : Vec) (vp : List Nat) (vals : List F) :
    (writeVary v vp vals).2 =
      if vp.length ≤ vals.length then none else some PyErr.indexError := by
  induction vp generalizing v vals with
  | nil => simp [writeVary]
  | cons idx vp ih =>
      cases vals with
      | nil => simp [writeVary]
      | cons x xs => simpa [writeVary] using ih _ xs

theorem writeVary_unchanged (v : Vec) (vp : List Nat) (vals : List F) (i : Nat)
    (h : i ∉ vp.take vals.length) :
    slotGet (writeVary v vp vals).1 i = slotGet v i := by
  induction vp generalizing v vals with
  | nil => rfl
  | cons idx vp ih =>
      cases vals with
      | nil => rfl
      | cons x xs =>
          have hne : i ≠ idx := by
            intro e
            exact h (by simp [e])
          have h2 : i ∉ vp.take xs.length := by
            intro hm
            exact h (by simp [hm])
          show slotGet (writeVary (modifySlot v idx _) vp xs).1 i = _
          rw [ih _ xs h2, slotGet_modify_ne _ _ _ _ hne]

theorem writeVary_flags (v : Vec) (vp : List Nat) (vals : List F) (i : Nat) :
    (slotGet (writeVary v vp vals).1 i).vary = (slotGet v i).vary ∧
    (slotGet (writeVary v vp vals).1 i).col2 = (slotGet v i).col2 ∧
    (slotGet (writeVary v vp vals).1 i).linear = (slotGet v i).linear := by
  induction vp generalizing v vals with
  | nil => exact ⟨rfl, rfl, rfl⟩
  | cons idx vp ih =>
      cases vals with
      | nil => exact ⟨rfl, rfl, rfl⟩
      | cons x xs =>
          have h1 := ih (modifySlot v idx (fun s => { s with value := x })) xs
          have h2 := slotGet_modify_value v i idx x
          exact ⟨h1.1.trans h2.1, h1.2.1.trans h2.2.1, h1.2.2.trans h2.2.2⟩

theorem writeVary_length (v : Vec) (vp : List Nat) (vals : List F) :
    (writeVary v vp vals).1.length = v.length := by
  induction vp generalizing v vals with
  | nil => rfl
  | cons idx vp ih =>
      cases vals with
      | nil => rfl
      | cons x xs =>
          show (writeVary (modifySlot v idx _) vp xs).1.length = _
          rw [ih _ xs, length_modifySlot]

theorem writeVary_written (v : Vec) (vp : List Nat) (vals : List F)
    (hnd : vp.Nodup) (hbd : ∀ j ∈ vp, j < v.length) (k : Nat)
    (hk1 : k < vp.length) (hk2 : k < vals.length) :
    slotGet (writeVary v vp vals).1 (vp.get ⟨k, hk1⟩) =
      { slotGet v (vp.get ⟨k, hk1⟩) with value := vals.get ⟨k, hk2⟩ } := by
  induction vp generalizing v vals k with
  | nil => exact absurd hk1 (Nat.not_lt_zero k)
  | cons idx vp ih =>
      cases vals with
      | nil => exact absurd hk2 (Nat.not_lt_zero k)
      | cons x xs =>
          cases k with
          | zero =>
              have hidx : idx ∉ vp := (List.nodup_cons.mp hnd).1
              have hnt : idx ∉ vp.take xs.length := fun hm => hidx (List.mem_of_mem_take hm)
              show slotGet (writeVary (modifySlot v idx _) vp xs).1 idx = _
              rw [writeVary_unchanged _ _ _ _ hnt,
                  slotGet_modify_self _ _ _ (hbd idx (by simp))]
              rfl
          | succ k' =>
              have hk1' : k' < vp.length := Nat.lt_of_succ_lt_succ hk1
              have hk2' : k' < xs.length := Nat.lt_of_succ_lt_succ hk2
              have hbd' : ∀ j ∈ vp, j < (modifySlot v idx (fun s => { s with value := x })).length := by
                intro j hj
                rw [length_modifySlot]
                exact hbd j (List.mem_cons_of_mem _ hj)
              have hmem : vp.get ⟨k', hk1'⟩ ∈ vp := List.get_mem vp k' hk1'
              have hne : vp.get ⟨k', hk1'⟩ ≠ idx := by
                intro e
                exact (List.nodup_cons.mp hnd).1 (e ▸ hmem)
              show slotGet (writeVary (modifySlot v idx _) vp xs).1 (vp.get ⟨k', hk1'⟩) = _
              rw [ih _ xs (List.nodup_cons.mp hnd).2 hbd' k' hk1' hk2',
                  slotGet_modify_ne _ _ _ _ hne]
              rfl

theorem set_vary_params_eq (st : LState) (vals : List F)
    (hc : cacheOk st) (hl : vals.length = (list_vary_params st.vec).length) :
    set_vary_params vals st =
      ({ vec := (writeVary st.vec (list_vary_params st.vec) vals).1,
         cache := some (list_vary_params st.vec) }, none) := by
  obtain hc | hc := hc
  · simp [set_vary_params, hc, writeVary_err, hl.symm, Nat.le_of_eq]
  · simp [set_vary_params, hc, writeVary_err, hl.symm, Nat.le_of_eq]

/-- C3: for every parameter state with a valid (or absent) vary cache
and every value sequence whose length equals the current number of
vary-flagged slots, `set_vary_params` succeeds, a subsequent
`get_vary_params` returns exactly that sequence in slot order, and the
write mutates only the value field of vary-flagged slots: every
non-varying slot is untouched and every flag field is unchanged. -/
theorem set_get_roundtrip (st : LState) (vals : List F)
    (hc : cacheOk st) (hl : vals.length = (list_vary_params st.vec).length) :
    (set_vary_params vals st).2 = none ∧
    (get_vary_params (set_vary_params vals st).1).1 = vals ∧
    (∀ i, i ∉ list_vary_params st.vec →
      slotGet (set_vary_params vals st).1.vec i = slotGet st.vec i) ∧
    (∀ i, (slotGet (set_vary_params vals st).1.vec i).vary = (slotGet st.vec i).vary ∧
          (slotGet (set_vary_params vals st).1.vec i).col2 = (slotGet st.vec i).col2 ∧
          (slotGet (set_vary_params vals st).1.vec i).linear = (slotGet st.vec i).linear) := by
  rw [set_vary_params_eq st vals hc hl]
  refine ⟨rfl, ?_, ?_, ?_⟩
  · show (list_vary_params st.vec).map
        (fun i => (slotGet (writeVary st.vec (list_vary_params st.vec) vals).1 i).value) = vals
    apply List.ext_get
    · simp [hl]
    · intro n h1 h2
      rw [List.get_map]
      rw [writeVary_written st.vec (list_vary_params st.vec) vals (nodup_list_vary _)
            (fun j hj => ((mem_list_vary _ _).mp hj).1) n (by simpa using h1)
            (by simpa [hl] using h1)]
  · intro i hi
    apply writeVary_unchanged
    intro hm
    exact hi (List.mem_of_mem_take hm)
  · intro i
    exact writeVary_flags st.vec (list_vary_params st.vec) vals i

/-- C3 witness: the round-trip law applied to a concrete three-slot
state and the value sequence `[7, 8]`. -/
theorem set_get_roundtrip_witness :
    (set_vary_params [F.num 7, F.num 8] c3st).2 = none ∧
    (get_vary_params (set_vary_params [F.num 7, F.num 8] c3st).1).1 = [F.num 7, F.num 8] ∧
    (∀ i, i ∉ list_vary_params c3st.vec →
      slotGet (set_vary_params [F.num 7, F.num 8] c3st).1.vec i = slotGet c3st.vec i) ∧
    (∀ i, (slotGet (set_vary_params [F.num 7, F.num 8] c3st).1.vec i).vary =
            (slotGet c3st.vec i).vary ∧
          (slotGet (set_vary_params [F.num 7, F.num 8] c3st).1.vec i).col2 =
            (slotGet c3st.vec i).col2 ∧
          (slotGet (set_vary_params [F.num 7, F.num 8] c3st).1.vec i).linear =
            (slotGet c3st.vec i).linear) :=
  set_get_roundtrip c3st [F.num 7, F.num 8] (Or.inl rfl) (by decide)

/-- C4 counterexample: with one vary-flagged slot and two supplied
values, `set_vary_params` raises, but only after mutating the vector —
the raise is not atomic, contradicting the claim that the error is
raised before any slot is mutated. -/
theorem set_vary_params_not_atomic :
    (set_vary_params [F.num 5, F.num 6] c4st).2 ≠ none ∧
    (set_vary_params [F.num 5, F.num 6] c4st).1.vec ≠ c4st.vec := by decide

/-- C4 (amended): a length mismatch makes `set_vary_params` fail — with
an `AssertionError` when too many values are supplied and an
`IndexError` when too few — but the error is raised only after the
first `min(len(values), mask size)` vary-flagged slots have been
written; slots outside that prefix are unchanged, so the vector is
mutated on error rather than left untouched. -/
theorem set_vary_params_mismatch (st : LState) (vals : List F)
    (hc : cacheOk st) (hl : vals.length ≠ (list_vary_params st.vec).length) :
    (set_vary_params vals st).2 =
      some (if (list_vary_params st.vec).length ≤ vals.length then PyErr.assertionError
            else PyErr.indexError) ∧
    (∀ k (hk1 : k < (list_vary_params st.vec).length) (hk2 : k < vals.length),
      slotGet (set_vary_params vals st).1.vec ((list_vary_params st.vec).get ⟨k, hk1⟩) =
        { slotGet st.vec ((list_vary_params st.vec).get ⟨k, hk1⟩) with
            value := vals.get ⟨k, hk2⟩ }) ∧
    (∀ i, i ∉ (list_vary_params st.vec).take vals.length →
      slotGet (set_vary_params vals st).1.vec i = slotGet st.vec i) := by
  have hne : ¬((list_vary_params st.vec).length = vals.length) := fun h => hl h.symm
  have hvp : (set_vary_params vals st) =
      (let vp := list_vary_params st.vec
       let wr := writeVary st.vec vp vals
       let st' : LState := { vec := wr.1, cache := some vp }
       match wr.2 with
       | some e => (st', some e)
       | none => if vp.length = vals.length then (st', none)
                 else (st', some PyErr.assertionError)) := by
    obtain hc | hc := hc
    · simp [set_vary_params, hc]
    · simp [set_vary_params, hc, hne]
  refine ⟨?_, ?_, ?_⟩
  · rw [hvp]
    simp only [writeVary_err]
    by_cases hle : (list_vary_params st.vec).length ≤ vals.length
    · simp [hle, hne]
    · simp [hle]
  · intro k hk1 hk2
    have hfst : (set_vary_params vals st).1.vec =
        (writeVary st.vec (list_vary_params st.vec) vals).1 := by
      rw [hvp]
      simp only [writeVary_err]
      by_cases hle : (list_vary_params st.vec).length ≤ vals.length
      · simp [hle, hne]
      · simp [hle]
    rw [hfst]
    exact writeVary_written st.vec _ vals (nodup_list_vary _)
      (fun j hj => ((mem_list_vary _ _).mp hj).1) k hk1 hk2
  · intro i hi
    have hfst : (set_vary_params vals st).1.vec =
        (writeVary st.vec (list_vary_params st.vec) vals).1 := by
      rw [hvp]
      simp only [writeVary_err]
      by_cases hle : (list_vary_params st.vec).length ≤ vals.length
      · simp [hle, hne]
      · simp [hle]
    rw [hfst]
    exact writeVary_unchanged _ _ _ _ hi

/-- C4 (amended) witness: the mismatch behaviour applied to the
concrete one-vary-slot state and two supplied values. -/
theorem set_vary_params_mismatch_witness :
    (set_vary_params [F.num 5, F.num 6] c4st).2 =
      some (if (list_vary_params c4st.vec).length ≤ [F.num 5, F.num 6].length
            then PyErr.assertionError else PyErr.indexError) ∧
    (∀ k (hk1 : k < (list_vary_params c4st.vec).length) (hk2 : k < [F.num 5, F.num 6].length),
      slotGet (set_vary_params [F.num 5, F.num 6] c4st).1.vec
          ((list_vary_params c4st.vec).get ⟨k, hk1⟩) =
        { slotGet c4st.vec ((list_vary_params c4st.vec).get ⟨k, hk1⟩) with
            value := [F.num 5, F.num 6].get ⟨k, hk2⟩ }) ∧
    (∀ i, i ∉ (list_vary_params c4st.vec).take [F.num 5, F.num 6].length →
      slotGet (set_vary_params [F.num 5, F.num 6] c4st).1.vec i = slotGet c4st.vec i) :=
  set_vary_params_mismatch c4st [F.num 5, F.num 6] (Or.inl rfl) (by decide)

/-! ## Information criteria (claim C7) -/

theorem get_vary_params_len (st : LState) (hc : cacheOk st) :
    (get_vary_params st).1.length = (list_vary_params st.vec).length := by
  obtain hc | hc := hc <;> simp [get_vary_params, hc]

/-- C7: with `n` data points and `k` vary-flagged parameters,
`aic()` returns `aic + 2k(k+1)/(n-k-1)` with `aic = -2 logprob + 2k`
when `n-k-1 > 0`, and it returns exactly `+inf` together with the
printed diagnostic lines — without raising — exactly when
`n-k-1 <= 0`. -/
theorem aic_small_sample (lp : F) (y : List F) (st : LState) (hc : cacheOk st) :
    (0 < (y.length : ℚ) - ((list_vary_params st.vec).length : ℚ) - 1 →
      (aic lp y st).1 =
        (F.add (F.add (F.mul (F.num (-2)) lp)
            (F.num (2 * ((list_vary_params st.vec).length : ℚ))))
          (F.num ((2 * ((list_vary_params st.vec).length : ℚ) *
              (((list_vary_params st.vec).length : ℚ) + 1)) /
            ((y.length : ℚ) - ((list_vary_params st.vec).length : ℚ) - 1))), [])) ∧
    ((aic lp y st).1 = (F.inf, aicWarnLines) ↔
      y.length ≤ (list_vary_params st.vec).length + 1) := by
  have hk : (get_vary_params st).1.length = (list_vary_params st.vec).length :=
    get_vary_params_len st hc
  have hiff : (0 < (y.length : ℚ) - ((list_vary_params st.vec).length : ℚ) - 1) ↔
      ((list_vary_params st.vec).length + 1 < y.length) := by
    rw [sub_sub, sub_pos]
    norm_cast
  constructor
  · intro hpos
    simp only [aic, hk]
    rw [if_pos hpos]
  · by_cases hpos : 0 < (y.length : ℚ) - ((list_vary_params st.vec).length : ℚ) - 1
    · constructor
      · intro h
        exfalso
        simp only [aic, hk, if_pos hpos] at h
        have := congrArg Prod.snd h
        simp [aicWarnLines] at this
      · intro h
        exact absurd (hiff.mp hpos) (Nat.not_lt.mpr h)
    · constructor
      · intro _
        exact Nat.not_lt.mp (fun hlt => hpos (hiff.mpr hlt))
      · intro _
        simp only [aic, hk]
        rw [if_neg hpos]

/-- C7 witness: the spec's own example `n = 3`, `k = 2` yields `+inf`
with the diagnostic lines. -/
theorem aic_small_sample_witness :
    (aic (F.num (-5)) (List.replicate 3 (F.num 0)) c3st).1 = (F.inf, aicWarnLines) :=
  ((aic_small_sample (F.num (-5)) (List.replicate 3 (F.num 0)) c3st (Or.inl rfl)).2).mpr
    (by decide)

/-! ## Lifting lemmas from `F` to `ℚ` computations -/

theorem map_lift (f : F → F) (g : ℚ → ℚ) (h : ∀ a, f (F.num a) = F.num (g a)) :
    ∀ l : List ℚ, (l.map F.num).map f = (l.map g).map F.num := by
  intro l
  induction l with
  | nil => rfl
  | cons a l ih => simp only [List.map_cons, h, ih]

theorem zipWith_lift (f : F → F → F) (g : ℚ → ℚ → ℚ)
    (h : ∀ a b, f (F.num a) (F.num b) = F.num (g a b)) (l1 l2 : List ℚ) :
    List.zipWith f (l1.map F.num) (l2.map F.num) = (List.zipWith g l1 l2).map F.num := by
  induction l1 generalizing l2 with
  | nil => rfl
  | cons a l ih =>
      cases l2 with
      | nil => rfl
      | cons b l2 => simp only [List.map_cons, List.zipWith_cons_cons, h, ih]

theorem zipWith_div_lift (l1 l2 : List ℚ) (h : ∀ b ∈ l2, b ≠ 0) :
    List.zipWith F.div (l1.map F.num) (l2.map F.num) =
      (List.zipWith (fun a b => a / b) l1 l2).map F.num := by
  induction l1 generalizing l2 with
  | nil => rfl
  | cons a l ih =>
      cases l2 with
      | nil => rfl
      | cons b l2 =>
          rw [List.map_cons, List.map_cons, List.zipWith_cons_cons,
            F.div_num_num a b (h b (by simp)), List.zipWith_cons_cons, List.map_cons,
            ih l2 (fun x hx => h x (by simp [hx]))]

theorem map_div_one_lift (l : List ℚ) (h : ∀ b ∈ l, b ≠ 0) :
    (l.map F.num).map (fun d => F.div (F.num 1) d) =
      (l.map (fun d => 1 / d)).map F.num := by
  induction l with
  | nil => rfl
  | cons b l ih =>
      rw [List.map_cons, List.map_cons, F.div_num_num 1 b (h b (by simp)),
        List.map_cons, List.map_cons, ih (fun x hx => h x (by simp [hx]))]

/-! ## Linear-gamma elimination (claim C2) -/

theorem slotGet_oob (v : Vec) (i : Nat) (h : v.length ≤ i) : slotGet v i = default := by
  unfold slotGet
  rw [List.getElem?_eq_none_iff.mpr h]
  rfl

theorem gammaIndex_lt (L : RVLike) (v : Vec)
    (hlin : (slotGet v L.gammaIndex).linear = true) : L.gammaIndex < v.length := by
  by_contra h
  rw [slotGet_oob v L.gammaIndex (Nat.le_of_not_lt h)] at hlin
  exact Bool.false_ne_true hlin

theorem ztilF_num (L : RVLike) (v : Vec) (yq mq eq2 : List ℚ) (jq : ℚ)
    (hy : L.y = yq.map F.num) (hm : L.model L.x = mq.map F.num)
    (he : L.yerr = eq2.map F.num)
    (hj : (slotGet v L.jitIndex).value = F.num jq)
    (hpos : ∀ e ∈ eq2, 0 < e * e + jq * jq) (hne : eq2 ≠ []) :
    ztilF L v = F.num (invVarWeightedMean yq mq eq2 jq) := by
  have hD : ∀ b ∈ eq2.map (fun e => e * e + jq * jq), b ≠ 0 := by
    intro b hb
    obtain ⟨e, he', rfl⟩ := List.mem_map.mp hb
    exact ne_of_gt (hpos e he')
  have hw : (eq2.map F.num).map (fun e => F.add (F.mul e e) (F.mul (F.num jq) (F.num jq))) =
      (eq2.map (fun e => e * e + jq * jq)).map F.num :=
    map_lift _ _ (fun a => by simp) eq2
  have hsub : List.zipWith F.sub (yq.map F.num) (mq.map F.num) =
      (List.zipWith (fun a b => a - b) yq mq).map F.num :=
    zipWith_lift _ _ (fun a b => by simp) yq mq
  have hS2pos : 0 < ((eq2.map (fun e => e * e + jq * jq)).map (fun d => 1 / d)).sum := by
    apply List.sum_pos
    · intro a ha
      obtain ⟨d, hd, rfl⟩ := List.mem_map.mp ha
      obtain ⟨e, he', rfl⟩ := List.mem_map.mp hd
      exact one_div_pos.mpr (hpos e he')
    · simp [hne]
  simp only [ztilF, hy, hm, he, hj]
  rw [hw, hsub,
    zipWith_div_lift _ _ hD, map_div_one_lift _ hD, sumF_map_num, sumF_map_num,
    F.div_num_num _ _ (ne_of_gt hS2pos)]
  have : F.isnan (F.num ((List.zipWith (fun a b => a / b)
      (List.zipWith (fun a b => a - b) yq mq) (eq2.map fun e => e * e + jq * jq)).sum /
      ((eq2.map fun e => e * e + jq * jq).map fun d => 1 / d).sum)) = false := rfl
  rw [this]
  show F.num _ = F.num (invVarWeightedMean yq mq eq2 jq)
  unfold invVarWeightedMean
  simp only [List.map_map, List.zipWith_map_right, Function.comp, mul_one_div]
  rfl

theorem ztilF_empty (L : RVLike) (v : Vec)
    (hy : L.y = []) (hm : L.model L.x = []) (he : L.yerr = []) :
    ztilF L v = F.num 0 := by
  simp [ztilF, hy, hm, he, sumF, F.div, F.isnan]

/-- C2: whenever the gamma (offset) slot has the linear flag set and
the vary flag unset, `residuals()` computes `ztil` as the
inverse-variance-weighted mean of `y - model(x)` with weights
`1/(yerr^2 + jit^2)` (or `0` when that quotient is NaN, which is the
empty-data `0/0` case), writes it into the gamma slot of the shared
vector as a side effect, and returns `y - gamma - model(x)` with the
updated gamma value. -/
theorem rv_residuals_linear (L : RVLike) (v : Vec)
    (yq mq eq2 : List ℚ) (jq : ℚ)
    (hdec : L.decorrParams = [])
    (hlin : (slotGet v L.gammaIndex).linear = true)
    (hvary : (slotGet v L.gammaIndex).vary = false)
    (hy : L.y = yq.map F.num) (hm : L.model L.x = mq.map F.num)
    (he : L.yerr = eq2.map F.num)
    (hj : (slotGet v L.jitIndex).value = F.num jq)
    (hpos : ∀ e ∈ eq2, 0 < e * e + jq * jq) :
    (eq2 ≠ [] →
      rv_residuals L v =
        ((List.zipWith (fun yi mi => yi - invVarWeightedMean yq mq eq2 jq - mi) yq mq).map F.num,
         modifySlot v L.gammaIndex
           (fun s => { s with value := F.num (invVarWeightedMean yq mq eq2 jq) }))) ∧
    (yq = [] → mq = [] → eq2 = [] →
      rv_residuals L v =
        ([], modifySlot v L.gammaIndex (fun s => { s with value := F.num 0 }))) := by
  have hlt : L.gammaIndex < v.length := gammaIndex_lt L v hlin
  have hcond : ((slotGet v L.gammaIndex).linear && !(slotGet v L.gammaIndex).vary) = true := by
    rw [hlin, hvary]
    rfl
  constructor
  · intro hne
    have hz := ztilF_num L v yq mq eq2 jq hy hm he hj hpos hne
    have hres : rv_residuals L v =
        (applyDecorr L (modifySlot v L.gammaIndex
            (fun s => { s with value := ztilF L v }))
          (List.zipWith F.sub
            (L.y.map (fun yi => F.sub yi
              ((slotGet (modifySlot v L.gammaIndex
                (fun s => { s with value := ztilF L v })) L.gammaIndex).value)))
            (L.model L.x)),
         modifySlot v L.gammaIndex (fun s => { s with value := ztilF L v })) := by
      simp only [rv_residuals, hcond, if_true]
    rw [hres, slotGet_modify_self v L.gammaIndex _ hlt]
    simp only [applyDecorr, hdec, List.length_nil, lt_irrefl, if_false]
    rw [hz, hy, hm]
    have hmap : (yq.map F.num).map
        (fun yi => F.sub yi (F.num (invVarWeightedMean yq mq eq2 jq))) =
        (yq.map (fun yi => yi - invVarWeightedMean yq mq eq2 jq)).map F.num :=
      map_lift _ _ (fun a => by simp) yq
    rw [hmap, zipWith_lift F.sub (fun a b => a - b) (fun a b => by simp),
      List.zipWith_map_left]
  · intro hyq hmq heq
    subst hyq hmq heq
    have hz := ztilF_empty L v (by simpa using hy) (by simpa using hm)
      (by simpa using he)
    have hres : rv_residuals L v =
        (applyDecorr L (modifySlot v L.gammaIndex
            (fun s => { s with value := ztilF L v }))
          (List.zipWith F.sub
            (L.y.map (fun yi => F.sub yi
              ((slotGet (modifySlot v L.gammaIndex
                (fun s => { s with value := ztilF L v })) L.gammaIndex).value)))
            (L.model L.x)),
         modifySlot v L.gammaIndex (fun s => { s with value := ztilF L v })) := by
      simp only [rv_residuals, hcond, if_true]
    rw [hres, hz]
    have hy' : L.y = [] := by simpa using hy
    have hm' : L.model L.x = [] := by simpa using hm
    rw [hy', hm']
    simp [applyDecorr, hdec]

/-- C2 witness: two points `y = [1, 3]`, unit errors, zero jitter and
zero model give `ztil = 2` written into the gamma slot and residuals
`[-1, 1]`. -/
theorem rv_residuals_linear_witness :
    rv_residuals c2L c2v =
      ([F.num (-1), F.num 1],
       modifySlot c2v 0 (fun s => { s with value := F.num 2 })) := by
  have h := (rv_residuals_linear c2L c2v [1, 3] [0, 0] [1, 1] 0
    rfl rfl rfl rfl rfl rfl rfl (by norm_num)).1 (by decide)
  rw [h]
  norm_num [invVarWeightedMean]
  decide

/-! ## Decorrelation gating (claim C8) -/

theorem filter_eq_singleton {l : List String} {p : String} (f : String → Bool)
    (hnd : l.Nodup) (hp : p ∈ l) (hf : ∀ q ∈ l, (f q = true ↔ q = p)) :
    l.filter f = [p] := by
  induction l with
  | nil => cases hp
  | cons a l ih =>
      obtain ⟨hna, hndl⟩ := List.nodup_cons.mp hnd
      by_cases hap : a = p
      · subst hap
        rw [List.filter_cons_of_pos ((hf a (by simp)).mpr rfl)]
        have hnil : l.filter f = [] := by
          rw [List.filter_eq_nil_iff]
          intro q hq hfq
          exact hna (((hf q (by simp [hq])).mp hfq) ▸ hq)
        rw [hnil]
      · have hp' : p ∈ l := (List.mem_cons.mp hp).resolve_left (fun e => hap e.symm)
        have hfa : ¬(f a = true) := fun h => hap ((hf a (by simp)).mp h)
        rw [List.filter_cons_of_neg hfa]
        exact ih hndl hp' (fun q hq => hf q (by simp [hq]))

theorem decorrPars_singleton (L : RVLike) (v : Vec) (p : String)
    (hnd : L.decorrParams.Nodup) (hp : p ∈ L.decorrParams)
    (hf : ∀ q ∈ L.decorrParams, (strContains (varOf p) q = true ↔ q = p)) :
    decorrPars L v (varOf p) = [(slotGet v (L.indices p)).value, F.num 0] := by
  unfold decorrPars
  rw [filter_eq_singleton (fun par => strContains (varOf p) par) hnd hp hf]
  rfl

/-- C8: the decorrelation polynomial of an auxiliary variable —
evaluated on the mean-centred auxiliary vector with the constant term
fixed at 0 — is subtracted from the residuals if and only if every
entry of that auxiliary vector is finite; a variable whose vector has a
non-finite entry contributes nothing (its step leaves the residuals
unchanged), no error is raised, and the other variables' terms are
unaffected.  The separation hypothesis `hsep` says each variable name
occurs (as a substring) only in its own coefficient parameter, which is
the naming scheme `c1_<var><suffix>` produces. -/
theorem rv_decorr_finite_gate (L : RVLike) (v : Vec) (res : List F)
    (hnd : L.decorrParams.Nodup)
    (hsep : ∀ p ∈ L.decorrParams, ∀ q ∈ L.decorrParams,
      (strContains (varOf p) q = true ↔ q = p)) :
    applyDecorr L v res = L.decorrParams.foldl
      (fun r p =>
        if allFiniteF (L.decorrVectors (varOf p)) then
          List.zipWith F.sub r ((L.decorrVectors (varOf p)).map
            (fun t => polyEval [(slotGet v (L.indices p)).value, F.num 0]
              (F.sub t (meanF (L.decorrVectors (varOf p))))))
        else r) res := by
  by_cases hlen : 0 < L.decorrParams.length
  · unfold applyDecorr
    rw [if_pos hlen]
    apply List.foldl_ext
    intro r p hp
    simp only [decorrStep]
    rw [decorrPars_singleton L v p hnd hp (hsep p hp)]
    by_cases hfin : allFiniteF (L.decorrVectors (varOf p)) = true
    · rw [if_pos hfin, if_pos hfin, List.map_map]
      rfl
    · rw [if_neg hfin, if_neg hfin]
  · have hempty : L.decorrParams = [] :=
      List.length_eq_zero.mp (Nat.le_zero.mp (Nat.not_lt.mp hlen))
    rw [hempty]
    unfold applyDecorr
    rw [hempty]
    rfl

/-- C8 witness: with residuals `[10]`, variable `a` (finite vector
`[1, 3]`, coefficient 2) is subtracted while variable `b` (vector
containing `inf`) is silently skipped, giving `[12]`. -/
theorem rv_decorr_finite_gate_witness :
    applyDecorr c8L c8v [F.num 10] = [F.num 12] := by
  rw [rv_decorr_finite_gate c8L c8v [F.num 10] (by decide) (by decide)]
  have e1 : varOf "c1_a" = "a" := by decide
  have e2 : varOf "c1_b" = "b" := by decide
  have e3 : ("b" : String) ≠ "a" := by decide
  simp only [c8L, List.foldl, e1, e2, ne_eq, e3, if_false, if_true]
  norm_num [allFiniteF, F.isfinite, meanF, sumF, F.add, F.div, F.sub, F.neg, F.mul,
    polyEval, slotGet, c8v, e3]

/-! ## Composite log-probability (claim C5) -/

theorem F.add_add_add_comm (a b c d : F) :
    F.add (F.add a b) (F.add c d) = F.add (F.add a c) (F.add b d) := by
  rw [F.add_assoc, ← F.add_assoc b c d, F.add_comm b c, F.add_assoc c b d, ← F.add_assoc]

theorem F.neghalf_sub_alg (c1 c2 p1 p2 : F) :
    F.sub (F.mul (.num (-(1 : ℚ)/2)) (F.add c1 c2)) (F.add p1 p2) =
      F.add (F.sub (F.mul (.num (-(1 : ℚ)/2)) c1) p1)
            (F.sub (F.mul (.num (-(1 : ℚ)/2)) c2) p2) := by
  unfold F.sub
  rw [F.mul_neghalf_add, F.neg_add, F.add_add_add_comm]

theorem loglike_jitter_append (rf : RealFns) (r1 r2 s1 s2 : List F) (jit : F)
    (hr : r1.length = s1.length) :
    loglike_jitter rf (r1 ++ r2) (s1 ++ s2) jit =
      F.add (loglike_jitter rf r1 s1 jit) (loglike_jitter rf r2 s2 jit) := by
  simp only [loglike_jitter]
  rw [List.map_append, List.map_append, sumF_append,
    List.zipWith_append _ _ _ _ _ (by simp [hr]), sumF_append]
  exact F.neghalf_sub_alg _ _ _ _

theorem rv_residuals_nolinear (L : RVLike) (v : Vec)
    (hlin : (slotGet v L.gammaIndex).linear = false) (hdec : L.decorrParams = []) :
    rv_residuals L v =
      (List.zipWith F.sub
        (L.y.map (fun yi => F.sub yi ((slotGet v L.gammaIndex).value))) (L.model L.x), v) := by
  have hcond : ((slotGet v L.gammaIndex).linear && !(slotGet v L.gammaIndex).vary) = false := by
    rw [hlin]
    rfl
  simp only [rv_residuals, hcond, Bool.false_eq_true, if_false]
  simp [applyDecorr, hdec]

theorem rv_logprob_nolinear (rf : RealFns) (L : RVLike) (v : Vec)
    (hlin : (slotGet v L.gammaIndex).linear = false) (hdec : L.decorrParams = []) :
    rv_logprob rf L v =
      (loglike_jitter rf
        (List.zipWith F.sub
          (L.y.map (fun yi => F.sub yi ((slotGet v L.gammaIndex).value))) (L.model L.x))
        L.yerr ((slotGet v L.jitIndex).value), v) := by
  have hcond : ((slotGet v L.gammaIndex).linear && !(slotGet v L.gammaIndex).vary) = false := by
    rw [hlin]
    rfl
  simp only [rv_logprob, rv_residuals_nolinear L v hlin hdec, hcond,
    Bool.false_eq_true, if_false]

theorem composite_logprob_fold (rf : RealFns) (likes : List RVLike) (a : F) (v : Vec) :
    likes.foldl (fun acc like =>
        let r := rv_logprob rf like acc.2
        (F.add acc.1 r.1, r.2)) (a, v) =
      (F.add a (sumF (childLogprobs rf likes v).1), (childLogprobs rf likes v).2) := by
  induction likes generalizing a v with
  | nil => simp [childLogprobs]
  | cons like rest ih =>
      simp only [List.foldl, childLogprobs]
      rw [ih]
      rw [sumF_cons, ← F.add_assoc]

/-- C5: `CompositeLikelihood.logprob()` is the sum, over the children
in list order, of each child's own `logprob()` (with the shared vector
threaded through the children in that order); and, in particular,
splitting one dataset into two children with identical shared
parameters (same gamma and jitter slots, offset not linear-eliminated)
reproduces the single-dataset log-likelihood. -/
theorem composite_logprob_sum :
    (∀ (rf : RealFns) (likes : List RVLike) (v : Vec),
      composite_logprob rf likes v =
        (sumF (childLogprobs rf likes v).1, (childLogprobs rf likes v).2)) ∧
    (∀ (rf : RealFns) (L1 L2 L : RVLike) (v : Vec),
      (slotGet v L1.gammaIndex).linear = false →
      L2.gammaIndex = L1.gammaIndex → L.gammaIndex = L1.gammaIndex →
      L2.jitIndex = L1.jitIndex → L.jitIndex = L1.jitIndex →
      L1.decorrParams = [] → L2.decorrParams = [] → L.decorrParams = [] →
      L.y = L1.y ++ L2.y → L.yerr = L1.yerr ++ L2.yerr →
      L.model L.x = L1.model L1.x ++ L2.model L2.x →
      L1.y.length = (L1.model L1.x).length → L1.y.length = L1.yerr.length →
      composite_logprob rf [L1, L2] v = rv_logprob rf L v) := by
  constructor
  · intro rf likes v
    rw [composite_logprob, composite_logprob_fold, F.zero_add]
  · intro rf L1 L2 L v hlin hgi2 hgiL hji2 hjiL hd1 hd2 hdL hyL heL hmL hlen1 hlen2
    have hlin2 : (slotGet v L2.gammaIndex).linear = false := by rw [hgi2]; exact hlin
    have hlinL : (slotGet v L.gammaIndex).linear = false := by rw [hgiL]; exact hlin
    have h1 := rv_logprob_nolinear rf L1 v hlin hd1
    have h2 := rv_logprob_nolinear rf L2 v hlin2 hd2
    have hL := rv_logprob_nolinear rf L v hlinL hdL
    have hsplit : List.zipWith F.sub
        (L.y.map (fun yi => F.sub yi ((slotGet v L.gammaIndex).value))) (L.model L.x) =
        List.zipWith F.sub
          (L1.y.map (fun yi => F.sub yi ((slotGet v L1.gammaIndex).value))) (L1.model L1.x) ++
        List.zipWith F.sub
          (L2.y.map (fun yi => F.sub yi ((slotGet v L2.gammaIndex).value))) (L2.model L2.x) := by
      rw [hyL, hmL, hgiL, hgi2, List.map_append,
        List.zipWith_append _ _ _ _ _ (by simp [hlen1])]
    have hval : loglike_jitter rf
        (List.zipWith F.sub
          (L.y.map (fun yi => F.sub yi ((slotGet v L.gammaIndex).value))) (L.model L.x))
        L.yerr ((slotGet v L.jitIndex).value) =
        F.add
          (loglike_jitter rf
            (List.zipWith F.sub
              (L1.y.map (fun yi => F.sub yi ((slotGet v L1.gammaIndex).value)))
              (L1.model L1.x))
            L1.yerr ((slotGet v L1.jitIndex).value))
          (loglike_jitter rf
            (List.zipWith F.sub
              (L2.y.map (fun yi => F.sub yi ((slotGet v L2.gammaIndex).value)))
              (L2.model L2.x))
            L2.yerr ((slotGet v L2.jitIndex).value)) := by
      rw [hsplit, heL, hjiL, hji2]
      apply loglike_jitter_append
      simp [List.length_zipWith, ← hlen1, ← hlen2]
    show List.foldl _ (F.num 0, v) [L1, L2] = _
    simp only [List.foldl, h1, h2, hL]
    rw [hval, F.zero_add]

/-- C5 witness: a two-point dataset split into two one-point children
with identical shared parameters reproduces the single-dataset
log-probability. -/
theorem composite_logprob_sum_witness :
    composite_logprob rf0 [c5L1, c5L2] c5v = rv_logprob rf0 c5L c5v :=
  composite_logprob_sum.2 rf0 c5L1 c5L2 c5L c5v rfl rfl rfl rfl rfl rfl rfl rfl
    rfl rfl rfl rfl rfl

/-! ## Composite construction validation (claims C6 and C10) -/

theorem paramEquals_iff (p q : Param) :
    paramEquals p q = true ↔ p.value = q.value ∧ p.vary = q.vary := by
  simp [paramEquals]

theorem paramEquals_refl (p : Param) : paramEquals p p = true := by
  simp [paramEquals]

theorem paramEquals_symm {p q : Param} (h : paramEquals p q = true) :
    paramEquals q p = true := by
  rw [paramEquals_iff] at h ⊢
  exact ⟨h.1.symm, h.2.symm⟩

theorem paramEquals_trans {p q r : Param} (h1 : paramEquals p q = true)
    (h2 : paramEquals q r = true) : paramEquals p r = true := by
  rw [paramEquals_iff] at h1 h2 ⊢
  exact ⟨h1.1.trans h2.1, h1.2.trans h2.2⟩

theorem alookup_append_some {k : String} {acc : List (String × Param)} {v : Param}
    (l2 : List (String × Param)) (h : alookup k acc = some v) :
    alookup k (acc ++ l2) = some v := by
  induction acc with
  | nil => cases h
  | cons a acc ih =>
      obtain ⟨k', p⟩ := a
      rw [List.cons_append]
      simp only [alookup] at h ⊢
      by_cases hk : k = k'
      · rwa [if_pos hk] at h ⊢
      · rw [if_neg hk] at h ⊢
        exact ih h

theorem alookup_append_none {k : String} {acc : List (String × Param)}
    (l2 : List (String × Param)) (h : alookup k acc = none) :
    alookup k (acc ++ l2) = alookup k l2 := by
  induction acc with
  | nil => rfl
  | cons a acc ih =>
      obtain ⟨k', p⟩ := a
      rw [List.cons_append]
      simp only [alookup] at h ⊢
      by_cases hk : k = k'
      · rw [if_pos hk] at h
        cases h
      · rw [if_neg hk] at h ⊢
        exact ih h

theorem alookup_mem {k : String} {l : List (String × Param)} {v : Param}
    (h : alookup k l = some v) : (k, v) ∈ l := by
  induction l with
  | nil => cases h
  | cons a l ih =>
      obtain ⟨k', p⟩ := a
      simp only [alookup] at h
      by_cases hk : k = k'
      · rw [if_pos hk] at h
        injection h with h
        subst hk
        subst h
        exact List.mem_cons_self _ _
      · rw [if_neg hk] at h
        exact List.mem_cons_of_mem _ (ih h)

theorem mem_alookup {k : String} {v : Param} {l : List (String × Param)}
    (hnd : (l.map Prod.fst).Nodup) (h : (k, v) ∈ l) : alookup k l = some v := by
  induction l with
  | nil => cases h
  | cons a l ih =>
      obtain ⟨k', p⟩ := a
      rw [List.map_cons] at hnd
      have hnd' := List.nodup_cons.mp hnd
      rcases List.mem_cons.mp h with he | hm
      · obtain ⟨hk, hv⟩ := Prod.mk.injEq .. ▸ he
        simp only [alookup, if_pos hk, hv]
      · have hk : k ≠ k' := by
          intro e
          subst e
          exact hnd'.1 (by simpa using List.mem_map_of_mem Prod.fst hm)
        simp only [alookup, if_neg hk]
        exact ih hnd'.2 hm

theorem mergeParams_cons_some {acc : List (String × Param)} {k : String} {p q : Param}
    {ps : List (String × Param)} (hq : alookup k acc = some q) :
    mergeParams acc ((k, p) :: ps) =
      if paramEquals p q then mergeParams acc ps else .error PyErr.assertionError := by
  simp only [mergeParams, hq]

theorem mergeParams_cons_none {acc : List (String × Param)} {k : String} {p : Param}
    {ps : List (String × Param)} (hq : alookup k acc = none) :
    mergeParams acc ((k, p) :: ps) = mergeParams (acc ++ [(k, p)]) ps := by
  simp only [mergeParams, hq]

theorem mergeParams_err {acc ps : List (String × Param)} {e : PyErr}
    (h : mergeParams acc ps = .error e) : e = PyErr.assertionError := by
  induction ps generalizing acc with
  | nil => cases h
  | cons a ps ih =>
      obtain ⟨k, p⟩ := a
      cases hl : alookup k acc with
      | some q =>
          rw [mergeParams_cons_some hl] at h
          by_cases he : paramEquals p q = true
          · rw [if_pos he] at h
            exact ih h
          · rw [if_neg he] at h
            injection h with h
            exact h.symm
      | none =>
          rw [mergeParams_cons_none hl] at h
          exact ih h

theorem mergeParams_mono {acc ps acc' : List (String × Param)}
    (h : mergeParams acc ps = .ok acc') {k : String} {v : Param}
    (hl : alookup k acc = some v) : alookup k acc' = some v := by
  induction ps generalizing acc with
  | nil =>
      injection h with h
      subst h
      exact hl
  | cons a ps ih =>
      obtain ⟨k', p⟩ := a
      cases hq : alookup k' acc with
      | some q =>
          rw [mergeParams_cons_some hq] at h
          by_cases he : paramEquals p q = true
          · rw [if_pos he] at h
            exact ih h hl
          · rw [if_neg he] at h
            cases h
      | none =>
          rw [mergeParams_cons_none hq] at h
          exact ih h (alookup_append_some _ hl)

theorem mergeParams_cover {acc ps acc' : List (String × Param)}
    (h : mergeParams acc ps = .ok acc') :
    ∀ kp ∈ ps, ∃ v, alookup kp.1 acc' = some v ∧ paramEquals kp.2 v = true := by
  induction ps generalizing acc with
  | nil => intro kp hkp; cases hkp
  | cons a ps ih =>
      obtain ⟨k', p⟩ := a
      intro kp hkp
      cases hq : alookup k' acc with
      | some q =>
          rw [mergeParams_cons_some hq] at h
          by_cases he : paramEquals p q = true
          · rw [if_pos he] at h
            rcases List.mem_cons.mp hkp with hkp' | hkp'
            · subst hkp'
              exact ⟨q, mergeParams_mono h hq, he⟩
            · exact ih h kp hkp'
          · rw [if_neg he] at h
            cases h
      | none =>
          rw [mergeParams_cons_none hq] at h
          rcases List.mem_cons.mp hkp with hkp' | hkp'
          · subst hkp'
            refine ⟨p, mergeParams_mono h ?_, paramEquals_refl p⟩
            rw [alookup_append_none _ hq]
            simp [alookup]
          · exact ih h kp hkp'

theorem alookup_append_single_inv {k k' : String} {acc : List (String × Param)}
    {p v : Param} (h : alookup k (acc ++ [(k', p)]) = some v) :
    alookup k acc = some v ∨ (k = k' ∧ v = p) := by
  cases hl : alookup k acc with
  | some w =>
      rw [alookup_append_some _ hl] at h
      exact Or.inl h
  | none =>
      rw [alookup_append_none _ hl] at h
      right
      simp only [alookup] at h
      by_cases hk : k = k'
      · rw [if_pos hk] at h
        injection h with h
        exact ⟨hk, h.symm⟩
      · rw [if_neg hk] at h
        cases h

theorem mergeParams_origin {acc ps acc' : List (String × Param)}
    (h : mergeParams acc ps = .ok acc') {k : String} {v : Param}
    (hl : alookup k acc' = some v) : alookup k acc = some v ∨ (k, v) ∈ ps := by
  induction ps generalizing acc with
  | nil =>
      injection h with h
      subst h
      exact Or.inl hl
  | cons a ps ih =>
      obtain ⟨k', p⟩ := a
      cases hq : alookup k' acc with
      | some q =>
          rw [mergeParams_cons_some hq] at h
          by_cases he : paramEquals p q = true
          · rw [if_pos he] at h
            rcases ih h with h' | h'
            · exact Or.inl h'
            · exact Or.inr (List.mem_cons_of_mem _ h')
          · rw [if_neg he] at h
            cases h
      | none =>
          rw [mergeParams_cons_none hq] at h
          rcases ih h with h' | h'
          · rcases alookup_append_single_inv h' with h'' | ⟨hk, hv⟩
            · exact Or.inl h''
            · subst hk
              subst hv
              exact Or.inr (List.mem_cons_self _ _)
          · exact Or.inr (List.mem_cons_of_mem _ h')

theorem mergeParams_ok (acc ps : List (String × Param))
    (hnd : (ps.map Prod.fst).Nodup)
    (h : ∀ kp ∈ ps, ∀ v, alookup kp.1 acc = some v → paramEquals kp.2 v = true) :
    ∃ acc', mergeParams acc ps = .ok acc' := by
  induction ps generalizing acc with
  | nil => exact ⟨acc, rfl⟩
  | cons a ps ih =>
      obtain ⟨k, p⟩ := a
      rw [List.map_cons] at hnd
      have hnd' := List.nodup_cons.mp hnd
      cases hq : alookup k acc with
      | some q =>
          have he : paramEquals p q = true := h (k, p) (List.mem_cons_self _ _) q hq
          rw [mergeParams_cons_some hq, if_pos he]
          exact ih _ hnd'.2 (fun kp hkp v hv => h kp (List.mem_cons_of_mem _ hkp) v hv)
      | none =>
          rw [mergeParams_cons_none hq]
          apply ih _ hnd'.2
          intro kp hkp v hv
          rcases alookup_append_single_inv hv with h' | ⟨hk, hv'⟩
          · exact h kp (List.mem_cons_of_mem _ hkp) v h'
          · exfalso
            apply hnd'.1
            have hin := List.mem_map_of_mem Prod.fst hkp
            rw [hk] at hin
            simpa using hin

theorem compositeStep_eq {heap : Nat → Vec} {vid0 : Nat} {acc : CompState}
    {like : RVLike} {up : Option (List (String × F))} {ps : List (String × Param)}
    (hu : updateUparams acc.uparams like.uparams = .ok up)
    (hm : mergeParams acc.params like.params = .ok ps) :
    compositeStep heap vid0 acc like =
      if like.vecId = vid0 then
        .ok { model := acc.model,
              x := acc.x ++ like.x,
              y := acc.y ++ like.y.map (fun yi => F.sub yi
                ((slotGet (heap like.vecId) (like.indices like.gammaParam)).value)),
              yerr := acc.yerr ++ like.yerr,
              telvec := acc.telvec ++ like.telvec,
              extraParams := acc.extraParams ++ like.extraParams,
              suffixes := acc.suffixes ++ [like.suffix],
              uparams := up,
              hnames := acc.hnames,
              params := ps,
              vecId := acc.vecId }
      else .error PyErr.assertionError := by
  simp only [compositeStep, hu, hm]

theorem compositeStep_errM {heap : Nat → Vec} {vid0 : Nat} {acc : CompState}
    {like : RVLike} {up : Option (List (String × F))} {e : PyErr}
    (hu : updateUparams acc.uparams like.uparams = .ok up)
    (hm : mergeParams acc.params like.params = .error e) :
    compositeStep heap vid0 acc like = .error e := by
  simp only [compositeStep, hu, hm]

theorem compositeFold_cons (heap : Nat → Vec) (vid0 : Nat) (acc : CompState)
    (like : RVLike) (rest : List RVLike) :
    compositeFold heap vid0 acc (like :: rest) =
      match compositeStep heap vid0 acc like with
      | .error e => .error e
      | .ok acc' => compositeFold heap vid0 acc' rest := rfl

theorem compositeFold_errors (heap : Nat → Vec) (vid0 : Nat) (rest : List RVLike)
    (acc : CompState) (hup : acc.uparams = none) :
    (∃ st, compositeFold heap vid0 acc rest = .ok st) ∨
      compositeFold heap vid0 acc rest = .error PyErr.assertionError := by
  induction rest generalizing acc with
  | nil => exact Or.inl ⟨acc, rfl⟩
  | cons like rest ih =>
      have hu : updateUparams acc.uparams like.uparams = .ok none := by
        rw [hup]
        cases like.uparams <;> rfl
      rw [compositeFold_cons]
      cases hm : mergeParams acc.params like.params with
      | error e =>
          right
          rw [compositeStep_errM hu hm, mergeParams_err hm]
      | ok ps =>
          by_cases hv : like.vecId = vid0
          · rw [compositeStep_eq hu hm, if_pos hv]
            exact ih _ rfl
          · right
            rw [compositeStep_eq hu hm, if_neg hv]

theorem compositeFold_ok_inv {heap : Nat → Vec} {vid0 : Nat} {rest : List RVLike}
    {acc st : CompState} (h : compositeFold heap vid0 acc rest = .ok st) :
    (∀ l ∈ rest, l.vecId = vid0) ∧
    (∀ l ∈ rest, ∀ kp ∈ l.params,
      ∃ v, alookup kp.1 st.params = some v ∧ paramEquals kp.2 v = true) ∧
    (∀ k v, alookup k acc.params = some v → alookup k st.params = some v) := by
  induction rest generalizing acc with
  | nil =>
      injection h with h
      subst h
      exact ⟨fun l hl => absurd hl (List.not_mem_nil l),
             fun l hl => absurd hl (List.not_mem_nil l),
             fun k v hv => hv⟩
  | cons like rest ih =>
      rw [compositeFold_cons] at h
      cases hu : updateUparams acc.uparams like.uparams with
      | error e =>
          rw [show compositeStep heap vid0 acc like = .error e by
            simp only [compositeStep, hu]] at h
          cases h
      | ok up =>
          cases hm : mergeParams acc.params like.params with
          | error e =>
              rw [compositeStep_errM hu hm] at h
              cases h
          | ok ps =>
              rw [compositeStep_eq hu hm] at h
              by_cases hv : like.vecId = vid0
              · rw [if_pos hv] at h
                obtain ⟨ih1, ih2, ih3⟩ := ih h
                refine ⟨?_, ?_, ?_⟩
                · intro l hl
                  rcases List.mem_cons.mp hl with hl' | hl'
                  · subst hl'
                    exact hv
                  · exact ih1 l hl'
                · intro l hl kp hkp
                  rcases List.mem_cons.mp hl with hl' | hl'
                  · subst hl'
                    obtain ⟨w, hw1, hw2⟩ := mergeParams_cover hm kp hkp
                    exact ⟨w, ih3 kp.1 w hw1, hw2⟩
                  · exact ih2 l hl' kp hkp
                · intro k v hv'
                  exact ih3 k v (mergeParams_mono hm hv')
              · rw [if_neg hv] at h
                cases h

theorem compositeFold_ok (heap : Nat → Vec) (vid0 : Nat) (likes : List RVLike)
    (rest : List RVLike) (acc : CompState)
    (hup : acc.uparams = none)
    (hrest : ∀ l ∈ rest, l ∈ likes)
    (hvec : ∀ l ∈ rest, l.vecId = vid0)
    (hnd : ∀ l ∈ likes, (l.params.map Prod.fst).Nodup)
    (hagree : paramsAgree likes)
    (horig : ∀ k v, alookup k acc.params = some v → ∃ l ∈ likes, alookup k l.params = some v) :
    ∃ st, compositeFold heap vid0 acc rest = .ok st := by
  induction rest generalizing acc with
  | nil => exact ⟨acc, rfl⟩
  | cons like rest ih =>
      have hlike : like ∈ likes := hrest like (List.mem_cons_self _ _)
      obtain ⟨ps, hps⟩ := mergeParams_ok acc.params like.params (hnd like hlike)
        (by
          intro kp hkp v hv
          obtain ⟨l, hl, hlv⟩ := horig kp.1 v hv
          have hkp' : alookup kp.1 like.params = some kp.2 :=
            mem_alookup (hnd like hlike) (by cases kp; exact hkp)
          exact hagree like hlike l hl kp.1 kp.2 v hkp' hlv)
      have hu : updateUparams acc.uparams like.uparams = .ok none := by
        rw [hup]
        cases like.uparams <;> rfl
      rw [compositeFold_cons, compositeStep_eq hu hps,
        if_pos (hvec like (List.mem_cons_self _ _))]
      apply ih _ rfl (fun l hl => hrest l (List.mem_cons_of_mem _ hl))
        (fun l hl => hvec l (List.mem_cons_of_mem _ hl))
      intro k v hv
      rcases mergeParams_origin hps hv with h' | h'
      · exact horig k v h'
      · exact ⟨like, hlike, mem_alookup (hnd like hlike) h'⟩

/-- C6: `CompositeLikelihood` construction succeeds exactly when every
child references the identical shared vector object and every
parameter name shared between children carries an identical
`(value, vary)` pair; any violation makes the constructor fail with an
`AssertionError`.  (`hup` excludes the unrelated `uparams` interaction;
`hnd` says each child's params dict has unique keys, as Python dicts
do.) -/
theorem composite_init_validation (heap : Nat → Vec) (like0 : RVLike)
    (rest : List RVLike)
    (hup : like0.uparams = none)
    (hnd : ∀ l ∈ like0 :: rest, (l.params.map Prod.fst).Nodup) :
    ((∀ l ∈ rest, l.vecId = like0.vecId) ∧ paramsAgree (like0 :: rest) →
      ∃ st, composite_init heap (like0 :: rest) = .ok st) ∧
    (¬((∀ l ∈ rest, l.vecId = like0.vecId) ∧ paramsAgree (like0 :: rest)) →
      composite_init heap (like0 :: rest) = .error PyErr.assertionError) := by
  constructor
  · rintro ⟨hvec, hagree⟩
    obtain ⟨st, hst⟩ := compositeFold_ok heap like0.vecId (like0 :: rest) rest
      { model := like0.model, x := like0.x, y := like0.y, yerr := like0.yerr,
        telvec := like0.telvec, extraParams := like0.extraParams,
        suffixes := [like0.suffix], uparams := like0.uparams,
        hnames := [], params := like0.params, vecId := like0.vecId }
      hup (fun l hl => List.mem_cons_of_mem _ hl) hvec hnd hagree
      (fun k v hv => ⟨like0, List.mem_cons_self _ _, hv⟩)
    refine ⟨{ st with extraParams := st.extraParams.dedup }, ?_⟩
    simp only [composite_init, hst]
  · intro hviol
    rcases compositeFold_errors heap like0.vecId rest
      { model := like0.model, x := like0.x, y := like0.y, yerr := like0.yerr,
        telvec := like0.telvec, extraParams := like0.extraParams,
        suffixes := [like0.suffix], uparams := like0.uparams,
        hnames := [], params := like0.params, vecId := like0.vecId } hup with hok | herr
    · exfalso
      obtain ⟨st, hst⟩ := hok
      obtain ⟨h1, h2, h3⟩ := compositeFold_ok_inv hst
      apply hviol
      refine ⟨h1, ?_⟩
      intro l1 hl1 l2 hl2 k p q hp hq
      have cover : ∀ l ∈ like0 :: rest, ∀ (r : Param), alookup k l.params = some r →
          ∃ w, alookup k st.params = some w ∧ paramEquals r w = true := by
        intro l hl r hr
        rcases List.mem_cons.mp hl with hl' | hl'
        · subst hl'
          exact ⟨r, h3 k r hr, paramEquals_refl r⟩
        · exact h2 l hl' (k, r) (alookup_mem hr)
      obtain ⟨w1, hw1, he1⟩ := cover l1 hl1 p hp
      obtain ⟨w2, hw2, he2⟩ := cover l2 hl2 q hq
      rw [hw1] at hw2
      injection hw2 with hw2
      subst hw2
      exact paramEquals_trans he1 (paramEquals_symm he2)
    · simp only [composite_init, herr]

/-- C6 witness: two children sharing the vector object and agreeing on
every shared parameter construct successfully. -/
theorem composite_init_validation_witness :
    ∃ st, composite_init (fun _ => c5v) [c5L1, c5L2] = .ok st :=
  (composite_init_validation (fun _ => c5v) c5L1 [c5L2] rfl (by decide)).1
    (by
      constructor
      · intro l hl
        rcases List.mem_cons.mp hl with h | h
        · rw [h]
          rfl
        · cases h
      · intro l1 h1 l2 h2 k p q hp hq
        have e1 : l1.params = [] := by
          rcases List.mem_cons.mp h1 with h | h
          · rw [h]
            rfl
          · rcases List.mem_cons.mp h with h' | h'
            · rw [h']
              rfl
            · cases h'
        rw [e1] at hp
        cases hp)

/-- C10: a single-child composite never raises — both validation checks
apply only to children after the first — and every assembled field is
taken from that child (the `extra_params` list passes through Python's
`list(set(...))`, modelled as `dedup`, so it is verbatim whenever it
has no duplicates, which `RVLikelihood` guarantees). -/
theorem composite_init_single (heap : Nat → Vec) (c : RVLike) :
    (composite_init heap [c] = .ok
      { model := c.model, x := c.x, y := c.y, yerr := c.yerr, telvec := c.telvec,
        extraParams := c.extraParams.dedup, suffixes := [c.suffix],
        uparams := c.uparams, hnames := [], params := c.params, vecId := c.vecId }) ∧
    (c.extraParams.Nodup → composite_init heap [c] = .ok
      { model := c.model, x := c.x, y := c.y, yerr := c.yerr, telvec := c.telvec,
        extraParams := c.extraParams, suffixes := [c.suffix],
        uparams := c.uparams, hnames := [], params := c.params, vecId := c.vecId }) := by
  constructor
  · rfl
  · intro hnd
    have : c.extraParams.dedup = c.extraParams := List.dedup_eq_self.mpr hnd
    simp only [composite_init, compositeFold, this]

/-- C10 witness: the single-child construction applied to a concrete
child with duplicate-free extra parameters. -/
theorem composite_init_single_witness :
    composite_init (fun _ => c2v) [c2L] = .ok
      { model := c2L.model, x := c2L.x, y := c2L.y, yerr := c2L.yerr,
        telvec := c2L.telvec, extraParams := c2L.extraParams,
        suffixes := [c2L.suffix], uparams := c2L.uparams, hnames := [],
        params := c2L.params, vecId := c2L.vecId } :=
  (composite_init_single (fun _ => c2v) c2L).2 (by decide)

/-! ## GP likelihood: failure handling (claim C1) and the two residual
notions (claim C9) -/

/-- C1: whenever the Cholesky factorization of the GP covariance matrix
`K` fails — a `LinAlgError` for a non-positive-definite matrix, or a
`ValueError` from NaN/inf propagation into the factorization —
`GPLikelihood.logprob` does not raise: it emits the runtime warning and
returns exactly `-inf`. -/
theorem gp_logprob_nonposdef (rf : RealFns) (G : GPLike) (v : Vec)
    (h : ∃ e, G.choFactor (G.covE (hpVals G v) G.x G.x (gp_errorbars rf G v)) = .error e) :
    gp_logprob rf G v = (F.ninf, [nonPosDefMsg]) := by
  obtain ⟨e, he⟩ := h
  simp only [gp_logprob, he]

/-- C1 witness: a GP likelihood whose factorization oracle reports a
non-positive-definite matrix yields `(-inf, warning)`. -/
theorem gp_logprob_nonposdef_witness :
    gp_logprob rf0 c1G [] = (F.ninf, [nonPosDefMsg]) :=
  gp_logprob_nonposdef rf0 c1G [] ⟨NumErr.linAlgError, rfl⟩

theorem F.sub_sub_comm (a b c : F) : F.sub (F.sub a b) c = F.sub (F.sub a c) b := by
  unfold F.sub
  rw [F.add_assoc, F.add_comm (F.neg b) (F.neg c), ← F.add_assoc]

theorem zipWith_sub_swap (A B C : List F) :
    List.zipWith F.sub (List.zipWith F.sub A B) C =
      List.zipWith F.sub (List.zipWith F.sub A C) B := by
  induction A generalizing B C with
  | nil => simp
  | cons a A ih =>
      cases B with
      | nil => simp
      | cons b B =>
          cases C with
          | nil => simp
          | cons c C =>
              simp only [List.zipWith_cons_cons]
              rw [F.sub_sub_comm, ih]

/-- C9: `GPLikelihood.residuals` equals `_resids` minus the GP
predictive mean evaluated at the training times
(`y - model(x) - mu_pred - gammas`), failing exactly when `predict`
fails; and `GPLikelihood.logprob` factors through `_resids` alone — no
GP predictive mean enters it.  The two residual notions differ exactly
by the GP mean prediction. -/
theorem gp_residuals_decomposition (rf : RealFns) (G : GPLike) (v : Vec) :
    gp_residuals rf G v =
      (gp_predict rf G v G.x none).map
        (fun p => List.zipWith F.sub (gp_resids G v) p.1) ∧
    gp_logprob rf G v = gp_logprob_given rf G v (gp_resids G v) := by
  constructor
  · unfold gp_residuals
    cases hp : gp_predict rf G v G.x none with
    | error e => simp only [hp, Except.map]
    | ok p =>
        simp only [hp, Except.map]
        congr 1
        unfold gp_resids
        exact zipWith_sub_swap _ _ _
  · rfl

end Radvel
